import Mathlib

/-!
Verification of the High-Performance-Order-Book repository.

The development shallowly embeds the two order-book variants present in the
source:

* the index-driven `OrderBook` of `src/order_book.py` (fields `bids`, `asks`,
  `order_map`, statistics counters; operations `add_order`, `cancel_order`,
  `get_best_bid`, `get_best_ask`, `get_spread`, `get_mid_price`, `get_depth`);
* the scanning `CancelModifyMixin` of `src/cancel_modify.py` (operations
  `cancel_order`, `modify_order` over `bids`/`asks` dictionaries of lists).

Python `dict`s (and `defaultdict`s) are embedded as insertion-ordered
association lists; Python `float` prices as rationals; Python `int`
quantities as integers.  The matching engine (`matching_engine.py`) and the
`Trade` record are imported by `order_book.py` but their files are absent
from the repository snapshot, so they are modelled from the specification's
description of the matching algorithm; such definitions carry a
`Modelled from the spec:` doc comment.
-/

/-- Resting or incoming order.  The scanning variant's `order.py` stores
`id`, `side : str`, `price`, `quantity`; the index-driven variant's `Order`
(constructed in `examples/example_usage.py` as
`Order(id, price, quantity, is_buy, timestamp)`) stores the side as the
boolean `is_buy`.  One structure serves both embeddings: the string side is
represented by `is_buy` (the mixin code never reads the side field), and the
wall-clock `timestamp` argument is omitted because no modelled operation
reads it (arrival order is carried by queue position). -/
structure Order where
  id : Nat
  price : ℚ
  quantity : ℤ
  is_buy : Bool
deriving DecidableEq

/-- Modelled from the spec: the `Trade` record of the missing `trade.py`
(resting order identifier, incoming order identifier, execution price equal
to the resting order's price, executed quantity). -/
structure Trade where
  resting_id : Nat
  incoming_id : Nat
  price : ℚ
  quantity : ℤ
deriving DecidableEq

/-- Error raised by the mixin operations (`OrderNotFound` in
`cancel_modify.py`). -/
inductive OBError where
  | orderNotFound
deriving DecidableEq

/-! Insertion-ordered association lists, the embedding of Python `dict`.
`alookup` is `d[k]` on a present key, `aset` is `d[k] = v`, `adel` is
`del d[k]`, `akeys` is `d.keys()`. -/

/-- Value bound to the first occurrence of key `k`, if any. -/
def alookup {α β : Type} [DecidableEq α] : List (α × β) → α → Option β
  | [], _ => none
  | (k', v) :: rest, k => if k' = k then some v else alookup rest k

/-- Membership test for a key (`k in d`). -/
def amem {α β : Type} [DecidableEq α] (l : List (α × β)) (k : α) : Bool :=
  (alookup l k).isSome

/-- Rebinding of key `k` to `v`: replaces the first occurrence of `k`, or
appends a new binding at the end (Python dicts preserve insertion order). -/
def aset {α β : Type} [DecidableEq α] : List (α × β) → α → β → List (α × β)
  | [], k, v => [(k, v)]
  | (k', v') :: rest, k, v =>
      if k' = k then (k', v) :: rest else (k', v') :: aset rest k v

/-- Deletion of the first occurrence of key `k` (`del d[k]`; a no-op when
the key is absent, which the sources never rely on). -/
def adel {α β : Type} [DecidableEq α] : List (α × β) → α → List (α × β)
  | [], _ => []
  | (k', v') :: rest, k => if k' = k then rest else (k', v') :: adel rest k

/-- Key list of the dictionary (`d.keys()`). -/
def akeys {α β : Type} (l : List (α × β)) : List α := l.map Prod.fst

/-! Sorting, the embedding of Python `sorted` over price keys.  An
insertion sort parameterised by a boolean comparison suffices: the sources
only sort lists of (distinct) dictionary keys, for which any comparison
sort computes the same result. -/

/-- Insertion of `x` into `l` before the first element `y` with `le x y`. -/
def insertLe {α : Type} (le : α → α → Bool) (x : α) : List α → List α
  | [] => [x]
  | y :: ys => if le x y then x :: y :: ys else y :: insertLe le x ys

/-- Insertion sort by the boolean comparison `le`. -/
def sortLe {α : Type} (le : α → α → Bool) (l : List α) : List α :=
  l.foldr (insertLe le) []

/-- Ascending price sort (`sorted(keys)`). -/
def sortAsc (l : List ℚ) : List ℚ := sortLe (fun a b => decide (a ≤ b)) l

/-- Descending price sort (`sorted(keys, reverse=True)`). -/
def sortDesc (l : List ℚ) : List ℚ := sortLe (fun a b => decide (b ≤ a)) l

/-- Python `max` over a list, `none` on the empty list. -/
def listMax : List ℚ → Option ℚ
  | [] => none
  | x :: xs =>
      match listMax xs with
      | none => some x
      | some m => some (max x m)

/-- Python `min` over a list, `none` on the empty list. -/
def listMin : List ℚ → Option ℚ
  | [] => none
  | x :: xs =>
      match listMin xs with
      | none => some x
      | some m => some (min x m)

/-! The order-book state of `src/order_book.py`. -/

/-- One side of the book: Python `Dict[float, Deque[Order]]`, price level to
FIFO queue of resting orders. -/
abbrev Side := List (ℚ × List Order)

/-- The order index: Python `Dict[int, Tuple[float, bool]]`, order id to
`(price, is_buy)`. -/
abbrev OrderMap := List (Nat × (ℚ × Bool))

/-- Embedding of `self.side[price].append(order)` on a `defaultdict(deque)`:
the entry is created empty at the end of the dictionary when absent, then the
order is appended at the queue's tail. -/
def dappend (p : ℚ) (o : Order) : Side → Side
  | [] => [(p, [o])]
  | (p', q) :: rest =>
      if p' = p then (p', q ++ [o]) :: rest else (p', q) :: dappend p o rest

/-- Embedding of a bare `defaultdict` subscript `side[price]`: returns the
queue and the possibly extended dictionary (an empty entry is materialised at
the end when the key is absent). -/
def dget (p : ℚ) : Side → List Order × Side
  | [] => ([], [(p, [])])
  | (p', q) :: rest =>
      if p' = p then (q, (p', q) :: rest)
      else
        let r := dget p rest
        (r.1, (p', q) :: r.2)

/-! Modelled from the spec: the matching engine of the missing
`matching_engine.py` (spec section 4.2).  Within a crossable level the
resting orders are visited in FIFO order; each match executes
`min(incoming remaining, resting remaining)`, emits a `Trade` at the resting
order's price, decrements both quantities, and removes a resting order whose
quantity reaches zero from the level and the order index.  Levels are
visited best-price-first; an emptied level is deleted from the side book;
the walk stops when the incoming quantity is exhausted or the next level is
not crossable. -/

/-- Modelled from the spec: matching of an incoming order (id `iid`,
remaining quantity `iq`) against one level's FIFO queue.  Returns the
trades, the leftover incoming quantity, the surviving queue, and the ids of
fully filled resting orders (to be deleted from the order index). -/
def matchQueue (iid : Nat) (iq : ℤ) : List Order → List Trade × ℤ × List Order × List Nat
  | [] => ([], iq, [], [])
  | o :: rest =>
      if iq ≤ 0 then ([], iq, o :: rest, [])
      else
        let ex := min iq o.quantity
        let t : Trade := ⟨o.id, iid, o.price, ex⟩
        if o.quantity ≤ iq then
          let r := matchQueue iid (iq - ex) rest
          (t :: r.1, r.2.1, r.2.2.1, o.id :: r.2.2.2)
        else
          ([t], iq - ex, { o with quantity := o.quantity - ex } :: rest, [])

/-- Modelled from the spec: crossability of a level at price `p` against an
incoming order (`none` limit is a market order, always crossable; a buy
crosses when its limit is at least `p`, a sell when its limit is at most
`p`). -/
def crossp (isBuy : Bool) (limit : Option ℚ) (p : ℚ) : Bool :=
  match limit with
  | none => true
  | some lp => if isBuy then decide (p ≤ lp) else decide (lp ≤ p)

/-- Modelled from the spec: processing of the single level at price `p` —
match the incoming remainder against the level's FIFO queue, delete the
level from the side when emptied (otherwise store the surviving queue), and
delete the filled resting orders' ids from the order index. -/
def levelStep (iid : Nat) (iq : ℤ) (p : ℚ) (s : Side) (m : OrderMap) :
    List Trade × ℤ × Side × OrderMap :=
  let q := (alookup s p).getD []
  let r := matchQueue iid iq q
  (r.1, r.2.1,
   (if r.2.2.1.isEmpty then adel s p else aset s p r.2.2.1),
   r.2.2.2.foldl adel m)

/-- Modelled from the spec: the walk over the opposite side's levels in
best-price-first order (`ps` is the sorted price list).  Stops at exhaustion
or at the first non-crossable level; an emptied level is removed from the
side; filled resting orders are removed from the order index. -/
def matchLoop (iid : Nat) (isBuy : Bool) (limit : Option ℚ) :
    ℤ → List ℚ → Side → OrderMap → List Trade × ℤ × Side × OrderMap
  | iq, [], s, m => ([], iq, s, m)
  | iq, p :: ps, s, m =>
      if iq ≤ 0 then ([], iq, s, m)
      else if crossp isBuy limit p then
        let st := levelStep iid iq p s m
        let rec2 := matchLoop iid isBuy limit st.2.1 ps st.2.2.1 st.2.2.2
        (st.1 ++ rec2.1, rec2.2.1, rec2.2.2.1, rec2.2.2.2)
      else ([], iq, s, m)

/-- Modelled from the spec: `MatchingEngine.match_order(order, opposite,
order_map)` — matches the incoming limit order against the opposite side,
returning the trades, the order's leftover quantity, and the updated
opposite side and order index. -/
def match_order (o : Order) (opposite : Side) (m : OrderMap) :
    List Trade × ℤ × Side × OrderMap :=
  let ps := if o.is_buy then sortAsc (akeys opposite) else sortDesc (akeys opposite)
  matchLoop o.id o.is_buy (some o.price) o.quantity ps opposite m

/-- The book state of `OrderBook.__init__`: the two sides, the order index,
and the statistics counters (the stateless `matcher` field is not state). -/
structure OrderBook where
  bids : Side
  asks : Side
  order_map : OrderMap
  total_orders : Nat
  total_trades : Nat
  total_volume : ℤ
deriving DecidableEq

/-- The empty book of `OrderBook.__init__`. -/
def OrderBook.empty : OrderBook := ⟨[], [], [], 0, 0, 0⟩

/-- Embedding of `OrderBook.add_order`: match against the opposite side,
update the statistics from the trades, and rest any leftover quantity at the
tail of the matching side's level, registering it in the order index. -/
def OrderBook.add_order (b : OrderBook) (o : Order) : List Trade × OrderBook :=
  let r := if o.is_buy then match_order o b.asks b.order_map
           else match_order o b.bids b.order_map
  let trades := r.1
  let remq := r.2.1
  let b1 := if o.is_buy then { b with asks := r.2.2.1, order_map := r.2.2.2 }
            else { b with bids := r.2.2.1, order_map := r.2.2.2 }
  let b2 := { b1 with
              total_trades := b1.total_trades + trades.length,
              total_volume := b1.total_volume + (trades.map Trade.quantity).sum }
  if 0 < remq then
    let o' := { o with quantity := remq }
    let b3 := if o.is_buy then { b2 with bids := dappend o.price o' b2.bids }
              else { b2 with asks := dappend o.price o' b2.asks }
    (trades, { b3 with
               order_map := aset b3.order_map o.id (o.price, o.is_buy),
               total_orders := b3.total_orders + 1 })
  else (trades, b2)

/-- Embedding of the Python comparison `side[price][0] == order_id` in
`OrderBook.cancel_order`: an `Order` instance compared with an `int`.  The
`Order` class defines no `__eq__` accepting an `int` (a dataclass `__eq__`
returns `NotImplemented` for a non-`Order` operand, and default equality is
identity), so the comparison always evaluates to `False`. -/
def orderEqId (_o : Order) (_i : Nat) : Bool := false

/-- Embedding of `OrderBook.cancel_order`: absent id returns `False`;
otherwise the order's entry is deleted from the order index and `True` is
returned.  The head-of-queue pop branch guarded by
`side[price][0] == order_id` is kept as in the source, although the guard
(`orderEqId`) never holds. -/
def OrderBook.cancel_order (b : OrderBook) (order_id : Nat) : Bool × OrderBook :=
  match alookup b.order_map order_id with
  | none => (false, b)
  | some (price, is_buy) =>
      let side := if is_buy then b.bids else b.asks
      let popGuard :=
        match alookup side price with
        | some (o :: _) => orderEqId o order_id
        | _ => false
      if popGuard then
        let q := (alookup side price).getD []
        let q' := q.tail
        let side' := if q'.isEmpty then adel side price else aset side price q'
        let b' := if is_buy then { b with bids := side' } else { b with asks := side' }
        (true, { b' with order_map := adel b'.order_map order_id })
      else
        (true, { b with order_map := adel b.order_map order_id })

/-- Modelled from the spec: `execute_market_order(side, quantity)` of the
scanning variant's missing book class, realised over the index-driven state
(spec section 4.1): walks the opposite side from the best price outward with
unconditional crossability, discards any unfilled remainder, and returns the
`(price, quantity)` fills.  Market orders never rest, so the order index
gains no entry. -/
def OrderBook.execute_market_order (b : OrderBook) (isBuy : Bool) (qty : ℤ) :
    List (ℚ × ℤ) × OrderBook :=
  let opp := if isBuy then b.asks else b.bids
  let ps := if isBuy then sortAsc (akeys opp) else sortDesc (akeys opp)
  let r := matchLoop 0 isBuy none qty ps opp b.order_map
  (r.1.map (fun t => (t.price, t.quantity)),
   if isBuy then { b with asks := r.2.2.1, order_map := r.2.2.2 }
   else { b with bids := r.2.2.1, order_map := r.2.2.2 })

/-- Embedding of `OrderBook.get_best_bid`: `None` when `bids` is empty, else
`max(self.bids.keys())`. -/
def OrderBook.get_best_bid (b : OrderBook) : Option ℚ :=
  if b.bids.isEmpty then none else listMax (akeys b.bids)

/-- Embedding of `OrderBook.get_best_ask`: `None` when `asks` is empty, else
`min(self.asks.keys())`. -/
def OrderBook.get_best_ask (b : OrderBook) : Option ℚ :=
  if b.asks.isEmpty then none else listMin (akeys b.asks)

/-- Embedding of `OrderBook.get_spread`: `best_ask - best_bid`, `None` when
either side is empty. -/
def OrderBook.get_spread (b : OrderBook) : Option ℚ :=
  match b.get_best_bid, b.get_best_ask with
  | some bb, some ba => some (ba - bb)
  | _, _ => none

/-- Embedding of `OrderBook.get_mid_price`: `(best_bid + best_ask) / 2.0`,
`None` when either side is empty. -/
def OrderBook.get_mid_price (b : OrderBook) : Option ℚ :=
  match b.get_best_bid, b.get_best_ask with
  | some bb, some ba => some ((bb + ba) / 2)
  | _, _ => none

/-- Embedding of the per-level sum in `OrderBook.get_depth`: total quantity
of the orders in the queue whose id is still in the order index
(`if order.id in self.order_map`, the read-time filter of lazily cancelled
orders). -/
def activeQty (m : OrderMap) : List Order → ℤ
  | [] => 0
  | o :: rest => (if amem m o.id then o.quantity else 0) + activeQty m rest

/-- One side of `OrderBook.get_depth`: fold over the top price keys,
subscripting the `defaultdict` (state-threaded through `dget`), appending
`(price, total)` when the filtered total is positive. -/
def depthSide (m : OrderMap) (ps : List ℚ) (s : Side) : List (ℚ × ℤ) × Side :=
  match ps with
  | [] => ([], s)
  | p :: rest =>
      let r := dget p s
      let tq := activeQty m r.1
      let r2 := depthSide m rest r.2
      (if 0 < tq then (p, tq) :: r2.1 else r2.1, r2.2)

/-- Embedding of `OrderBook.get_depth(levels)`: the top `levels` bid prices
in descending order and ask prices in ascending order, each with the sum of
the index-filtered resting quantity, levels with non-positive totals
omitted.  The returned state reflects the `defaultdict` subscripts performed
by the loops. -/
def OrderBook.get_depth (b : OrderBook) (levels : Nat) :
    (List (ℚ × ℤ) × List (ℚ × ℤ)) × OrderBook :=
  let bp := (sortDesc (akeys b.bids)).take levels
  let rb := depthSide b.order_map bp b.bids
  let ap := (sortAsc (akeys b.asks)).take levels
  let ra := depthSide b.order_map ap b.asks
  ((rb.1, ra.1), { b with bids := rb.2, asks := ra.2 })

/-! The scanning variant of `src/cancel_modify.py`.  The mixin's host class
(the scanning `OrderBook`, absent from the snapshot) supplies `self.bids`
and `self.asks`, dictionaries of order lists, used by the root
`example_usage.py` via `print_book(ob.bids, ob.asks)`. -/

/-- State the mixin operates on: the scanning book's `bids` and `asks`
dictionaries. -/
structure SBook where
  bids : Side
  asks : Side
deriving DecidableEq

/-- Scan of one queue in `CancelModifyMixin.cancel_order`: find the first
order with the given id and remove it from the list (Python `list.remove`
deletes the first element structurally equal to the found order). -/
def removeById (order_id : Nat) : List Order → Option (List Order)
  | [] => none
  | o :: rest =>
      if o.id = order_id then some rest
      else
        match removeById order_id rest with
        | some rest' => some (o :: rest')
        | none => none

/-- Scan of one whole side in `CancelModifyMixin.cancel_order`, visiting the
levels in dictionary (insertion) order. -/
def cancelScan (order_id : Nat) : Side → Option Side
  | [] => none
  | (p, q) :: rest =>
      match removeById order_id q with
      | some q' => some ((p, q') :: rest)
      | none =>
          match cancelScan order_id rest with
          | some rest' => some ((p, q) :: rest')
          | none => none

/-- Embedding of `CancelModifyMixin.cancel_order`: scans the bid levels then
the ask levels for the first order with the given id, removes it from its
queue (the emptied level is left in place) and returns `True`; raises
`OrderNotFound` when no queue holds the id. -/
def CancelModifyMixin.cancel_order (b : SBook) (order_id : Nat) :
    Except OBError (Bool × SBook) :=
  match cancelScan order_id b.bids with
  | some bids' => .ok (true, { b with bids := bids' })
  | none =>
      match cancelScan order_id b.asks with
      | some asks' => .ok (true, { b with asks := asks' })
      | none => .error .orderNotFound

/-- In-place field update of `CancelModifyMixin.modify_order`: the found
order's price and quantity are overwritten by the optional arguments. -/
def applyModify (o : Order) (new_price : Option ℚ) (new_quantity : Option ℤ) : Order :=
  let o1 := match new_price with
            | some p => { o with price := p }
            | none => o
  match new_quantity with
  | some q => { o1 with quantity := q }
  | none => o1

/-- Scan of one queue in `CancelModifyMixin.modify_order`: the first order
with the given id is modified in place. -/
def modifyById (order_id : Nat) (np : Option ℚ) (nq : Option ℤ) :
    List Order → Option (Order × List Order)
  | [] => none
  | o :: rest =>
      if o.id = order_id then
        let o' := applyModify o np nq
        some (o', o' :: rest)
      else
        match modifyById order_id np nq rest with
        | some (o', rest') => some (o', o :: rest')
        | none => none

/-- Scan of one whole side in `CancelModifyMixin.modify_order`. -/
def modifyScan (order_id : Nat) (np : Option ℚ) (nq : Option ℤ) :
    Side → Option (Order × Side)
  | [] => none
  | (p, q) :: rest =>
      match modifyById order_id np nq q with
      | some (o', q') => some (o', (p, q') :: rest)
      | none =>
          match modifyScan order_id np nq rest with
          | some (o', rest') => some (o', (p, q) :: rest')
          | none => none

/-- Embedding of `CancelModifyMixin.modify_order`: scans the ask levels then
the bid levels (`for books in (self.asks, self.bids)`) for the first order
with the given id and overwrites its price and quantity fields in place —
the order is not relocated, no level is created or deleted, and no index is
touched; raises `OrderNotFound` when the id is in no queue. -/
def CancelModifyMixin.modify_order (b : SBook) (order_id : Nat)
    (new_price : Option ℚ) (new_quantity : Option ℤ) :
    Except OBError (Order × SBook) :=
  match modifyScan order_id new_price new_quantity b.asks with
  | some (o', asks') => .ok (o', { b with asks := asks' })
  | none =>
      match modifyScan order_id new_price new_quantity b.bids with
      | some (o', bids') => .ok (o', { b with bids := bids' })
      | none => .error .orderNotFound

/-! Operation traces over the index-driven book, for stating invariants that
hold after every sequence of public operations. -/

/-- One public operation on the index-driven book. -/
inductive Op where
  | add : Order → Op
  | cancel : Nat → Op
  | market : Bool → ℤ → Op
deriving DecidableEq

/-- State reached by applying one operation (result values discarded). -/
def applyOp (b : OrderBook) : Op → OrderBook
  | .add o => (b.add_order o).2
  | .cancel i => (b.cancel_order i).2
  | .market ib q => (b.execute_market_order ib q).2

/-- State reached from the empty book by a sequence of operations. -/
def runOps (ops : List Op) : OrderBook :=
  ops.foldl applyOp OrderBook.empty

/-! Concrete fixtures used by witnesses and counterexamples. -/

/-- Buy order 1, 10 at 100. -/
def oB1 : Order := ⟨1, 100, 10, true⟩

/-- Buy order 2, 5 at 100. -/
def oB2 : Order := ⟨2, 100, 5, true⟩

/-- Sell order 3, 8 at 110. -/
def oS3 : Order := ⟨3, 110, 8, false⟩

/-- Book after adding orders 1 and 2 at the same bid price and order 3 on
the ask side, then cancelling order 2 (which is not at the front of its
queue, hence lazily deleted). -/
def bkLazy : OrderBook :=
  runOps [Op.add oB1, Op.add oB2, Op.add oS3, Op.cancel 2]


/-! The order-index and level-cleanup invariants over reachable book
states. -/

/-- Key list of the order index has no duplicates (inherent to a Python
dict; maintained by the embedding's operations). -/
def MapND (b : OrderBook) : Prop := (akeys b.order_map).Nodup

/-- Forward index consistency: every identifier in the order index belongs
to an order resting in the queue at the recorded price on the recorded
side. -/
def IdxInv (b : OrderBook) : Prop :=
  ∀ i p bu, alookup b.order_map i = some (p, bu) →
    ∃ q, alookup (if bu then b.bids else b.asks) p = some q ∧
      ∃ o ∈ q, o.id = i ∧ o.price = p

/-- No price key of a side maps to an empty queue. -/
def NoEmptyLevels (s : Side) : Prop := ∀ pq ∈ s, pq.2 ≠ []

/-! Sanity evaluations of the embedding on concrete inputs. -/

example : sortAsc [3, 1, 2] = [1, 2, 3] := by decide
example : sortDesc [3, 1, 2] = [3, 2, 1] := by decide
example : listMax [3, 1, 2] = some 3 := by decide
example : alookup [(1, 10), (2, 20)] 2 = some 20 := by decide
example : bkLazy.bids = [(100, [oB1, oB2])] := by decide
example : bkLazy.order_map = [(1, (100, true)), (3, (110, false))] := by decide
example : bkLazy.asks = [(110, [oS3])] := by decide

/-! Lemmas about the association-list dictionary operations. -/

theorem alookup_eq_none_iff {α β : Type} [DecidableEq α] (l : List (α × β)) (k : α) :
    alookup l k = none ↔ k ∉ akeys l := by
  induction l with
  | nil => simp [alookup, akeys]
  | cons hd tl ih =>
    obtain ⟨k', v⟩ := hd
    by_cases h : k' = k
    · subst h
      simp [alookup, akeys]
    · simp [alookup, akeys, h, ih, Ne.symm h]

theorem alookup_aset_self {α β : Type} [DecidableEq α] (l : List (α × β)) (k : α) (v : β) :
    alookup (aset l k v) k = some v := by
  induction l with
  | nil => simp [aset, alookup]
  | cons hd tl ih =>
    obtain ⟨k', v'⟩ := hd
    by_cases h : k' = k <;> simp [aset, alookup, h, ih]

theorem alookup_aset_ne {α β : Type} [DecidableEq α] (l : List (α × β)) (k k' : α) (v : β)
    (h : k' ≠ k) : alookup (aset l k v) k' = alookup l k' := by
  induction l with
  | nil => simp [aset, alookup, Ne.symm h]
  | cons hd tl ih =>
    obtain ⟨k0, v0⟩ := hd
    by_cases h0 : k0 = k
    · subst h0
      simp [aset, alookup, Ne.symm h]
    · simp [aset, alookup, h0, ih]

theorem alookup_adel_ne {α β : Type} [DecidableEq α] (l : List (α × β)) (k k' : α)
    (h : k' ≠ k) : alookup (adel l k) k' = alookup l k' := by
  induction l with
  | nil => simp [adel]
  | cons hd tl ih =>
    obtain ⟨k0, v0⟩ := hd
    by_cases h0 : k0 = k
    · subst h0
      simp [adel, alookup, Ne.symm h]
    · simp [adel, alookup, h0, ih]

theorem akeys_adel_sublist {α β : Type} [DecidableEq α] (l : List (α × β)) (k : α) :
    List.Sublist (akeys (adel l k)) (akeys l) := by
  induction l with
  | nil => simp [adel]
  | cons hd tl ih =>
    obtain ⟨k0, v0⟩ := hd
    by_cases h0 : k0 = k
    · simp only [adel, h0, if_pos rfl, akeys, List.map_cons]
      exact List.sublist_cons_self _ _
    · simpa [adel, h0, akeys] using ih.cons₂ k0

theorem nodup_akeys_adel {α β : Type} [DecidableEq α] (l : List (α × β)) (k : α)
    (h : (akeys l).Nodup) : (akeys (adel l k)).Nodup :=
  h.sublist (akeys_adel_sublist l k)

theorem alookup_adel_self {α β : Type} [DecidableEq α] (l : List (α × β)) (k : α)
    (h : (akeys l).Nodup) : alookup (adel l k) k = none := by
  induction l with
  | nil => simp [adel, alookup]
  | cons hd tl ih =>
    obtain ⟨k0, v0⟩ := hd
    simp only [akeys, List.map_cons, List.nodup_cons] at h
    by_cases h0 : k0 = k
    · subst h0
      simpa [adel, alookup_eq_none_iff, akeys] using h.1
    · simp [adel, alookup, h0, ih h.2]

theorem alookup_adel_sub {α β : Type} [DecidableEq α] (l : List (α × β)) (k j : α) (v : β)
    (hnd : (akeys l).Nodup) (h : alookup (adel l k) j = some v) :
    alookup l j = some v := by
  by_cases hj : j = k
  · subst hj
    rw [alookup_adel_self l j hnd] at h
    exact absurd h (by simp)
  · rwa [alookup_adel_ne l k j hj] at h

theorem alookup_none_adel_aux {α β : Type} [DecidableEq α] (l : List (α × β)) (j : α) :
    alookup l j = none → alookup (adel l j) j = none := by
  induction l with
  | nil => intro h; exact h
  | cons hd tl ih =>
    obtain ⟨k0, v0⟩ := hd
    intro h
    by_cases h0 : k0 = j
    · simp [alookup, h0] at h
    · simp only [alookup, if_neg h0] at h
      simp [adel, alookup, h0, ih h]

theorem alookup_none_adel {α β : Type} [DecidableEq α] (l : List (α × β)) (k j : α)
    (h : alookup l j = none) : alookup (adel l k) j = none := by
  by_cases hj : j = k
  · subst hj
    exact alookup_none_adel_aux l j h
  · rwa [alookup_adel_ne l k j hj]

theorem mem_adel {α β : Type} [DecidableEq α] (l : List (α × β)) (k : α) :
    ∀ x ∈ adel l k, x ∈ l := by
  induction l with
  | nil => intro x hx; simp [adel] at hx
  | cons hd tl ih =>
    obtain ⟨k0, v0⟩ := hd
    intro x hx
    by_cases h0 : k0 = k
    · simp only [adel, h0, if_pos rfl] at hx
      exact List.mem_cons_of_mem _ hx
    · simp only [adel, if_neg h0, List.mem_cons] at hx
      rcases hx with hx | hx
      · exact hx ▸ List.mem_cons_self _ _
      · exact List.mem_cons_of_mem _ (ih x hx)

theorem mem_aset {α β : Type} [DecidableEq α] (l : List (α × β)) (k : α) (v : β) :
    ∀ x ∈ aset l k v, x ∈ l ∨ x = (k, v) := by
  induction l with
  | nil => intro x hx; exact Or.inr (by simpa [aset] using hx)
  | cons hd tl ih =>
    obtain ⟨k0, v0⟩ := hd
    intro x hx
    by_cases h0 : k0 = k
    · subst h0
      have he : aset ((k0, v0) :: tl) k0 v = (k0, v) :: tl := by simp [aset]
      rw [he] at hx
      rcases List.mem_cons.mp hx with hx | hx
      · exact Or.inr hx
      · exact Or.inl (List.mem_cons_of_mem _ hx)
    · have he : aset ((k0, v0) :: tl) k v = (k0, v0) :: aset tl k v := by simp [aset, h0]
      rw [he] at hx
      rcases List.mem_cons.mp hx with hx | hx
      · exact Or.inl (hx ▸ List.mem_cons_self _ _)
      · rcases ih x hx with hh | hh
        · exact Or.inl (List.mem_cons_of_mem _ hh)
        · exact Or.inr hh

theorem akeys_aset {α β : Type} [DecidableEq α] (l : List (α × β)) (k : α) (v : β) :
    akeys (aset l k v) = akeys l ∨ akeys (aset l k v) = akeys l ++ [k] := by
  induction l with
  | nil => simp [aset, akeys]
  | cons hd tl ih =>
    obtain ⟨k0, v0⟩ := hd
    by_cases h0 : k0 = k
    · simp [aset, akeys, h0]
    · rcases ih with h | h
      · refine Or.inl ?_
        simp only [akeys] at h ⊢
        simp [aset, h0, h]
      · refine Or.inr ?_
        simp only [akeys] at h ⊢
        simp [aset, h0, h]

theorem nodup_akeys_aset {α β : Type} [DecidableEq α] (l : List (α × β)) (k : α) (v : β)
    (hnd : (akeys l).Nodup) : (akeys (aset l k v)).Nodup := by
  induction l with
  | nil => simp [aset, akeys]
  | cons hd tl ih =>
    obtain ⟨k0, v0⟩ := hd
    simp only [akeys, List.map_cons, List.nodup_cons] at hnd
    by_cases h0 : k0 = k
    · subst h0
      simpa [aset, akeys] using hnd
    · have htl := ih hnd.2
      simp only [aset, if_neg h0, akeys, List.map_cons, List.nodup_cons]
      refine ⟨?_, htl⟩
      have hk := akeys_aset tl k v
      simp only [akeys] at hk
      rcases hk with h | h
      · rw [h]
        exact hnd.1
      · rw [h]
        simp only [List.mem_append, List.mem_singleton]
        rintro (hc | hc)
        · exact hnd.1 hc
        · exact h0 hc

/-! Lemmas about folded deletions (the order-index updates of the matching
engine). -/

theorem akeys_foldl_adel_sublist {α β : Type} [DecidableEq α] (ids : List α) :
    ∀ m : List (α × β), List.Sublist (akeys (ids.foldl adel m)) (akeys m) := by
  induction ids with
  | nil => intro m; exact List.Sublist.refl _
  | cons i rest ih =>
    intro m
    exact (ih (adel m i)).trans (akeys_adel_sublist m i)

theorem nodup_akeys_foldl_adel {α β : Type} [DecidableEq α] (ids : List α)
    (m : List (α × β)) (h : (akeys m).Nodup) : (akeys (ids.foldl adel m)).Nodup :=
  h.sublist (akeys_foldl_adel_sublist ids m)

theorem alookup_foldl_adel_sub {α β : Type} [DecidableEq α] (ids : List α) :
    ∀ m : List (α × β), (akeys m).Nodup → ∀ j v,
      alookup (ids.foldl adel m) j = some v → alookup m j = some v := by
  induction ids with
  | nil => intro m _ j v h; exact h
  | cons i rest ih =>
    intro m hnd j v h
    exact alookup_adel_sub m i j v hnd
      (ih (adel m i) (nodup_akeys_adel m i hnd) j v h)

theorem alookup_none_foldl_adel {α β : Type} [DecidableEq α] (ids : List α) :
    ∀ m : List (α × β), ∀ j, alookup m j = none →
      alookup (ids.foldl adel m) j = none := by
  induction ids with
  | nil => intro m j h; exact h
  | cons i rest ih =>
    intro m j h
    exact ih (adel m i) j (alookup_none_adel m i j h)

theorem alookup_foldl_adel_of_mem {α β : Type} [DecidableEq α] (ids : List α) :
    ∀ m : List (α × β), (akeys m).Nodup → ∀ i ∈ ids,
      alookup (ids.foldl adel m) i = none := by
  induction ids with
  | nil => intro m _ i hi; simp at hi
  | cons i0 rest ih =>
    intro m hnd i hi
    rcases List.mem_cons.mp hi with hi | hi
    · subst hi
      exact alookup_none_foldl_adel rest (adel m i) i (alookup_adel_self m i hnd)
    · exact ih (adel m i0) (nodup_akeys_adel m i0 hnd) i hi

/-! Lemmas about the insertion sort (the `sorted(...)` calls of the
source). -/

theorem mem_insertLe {α : Type} (le : α → α → Bool) (x : α) :
    ∀ l : List α, ∀ y, y ∈ insertLe le x l ↔ y = x ∨ y ∈ l := by
  intro l
  induction l with
  | nil => intro y; simp [insertLe]
  | cons z zs ih =>
    intro y
    by_cases h : le x z
    · simp [insertLe, h, List.mem_cons]
    · simp only [insertLe, if_neg h, List.mem_cons, ih y]
      tauto

theorem mem_sortLe {α : Type} (le : α → α → Bool) :
    ∀ l : List α, ∀ y, y ∈ sortLe le l ↔ y ∈ l := by
  intro l
  induction l with
  | nil => intro y; simp [sortLe]
  | cons z zs ih =>
    intro y
    simp only [sortLe, List.foldr_cons, List.mem_cons]
    rw [show List.foldr (insertLe le) [] zs = sortLe le zs from rfl] at *
    rw [mem_insertLe le z (sortLe le zs) y, ih y]

theorem pairwise_insertLe {α : Type} (le : α → α → Bool)
    (htot : ∀ a b, le a b = true ∨ le b a = true)
    (htr : ∀ a b c, le a b = true → le b c = true → le a c = true)
    (x : α) : ∀ l : List α, l.Pairwise (fun a b => le a b = true) →
    (insertLe le x l).Pairwise (fun a b => le a b = true) := by
  intro l
  induction l with
  | nil => intro _; simp [insertLe]
  | cons y ys ih =>
    intro hp
    rcases List.pairwise_cons.mp hp with ⟨hy, hys⟩
    by_cases h : le x y
    · simp only [insertLe, if_pos h, List.pairwise_cons]
      refine ⟨?_, hy, hys⟩
      intro z hz
      rcases List.mem_cons.mp hz with hz | hz
      · subst hz; exact h
      · exact htr x y z h (hy z hz)
    · simp only [insertLe, if_neg h, List.pairwise_cons]
      refine ⟨?_, ih hys⟩
      intro z hz
      rcases (mem_insertLe le x ys z).mp hz with hz | hz
      · rw [hz]
        rcases htot x y with hxy | hyx
        · exact absurd hxy (by simpa using h)
        · exact hyx
      · exact hy z hz

theorem pairwise_sortLe {α : Type} (le : α → α → Bool)
    (htot : ∀ a b, le a b = true ∨ le b a = true)
    (htr : ∀ a b c, le a b = true → le b c = true → le a c = true)
    (l : List α) : (sortLe le l).Pairwise (fun a b => le a b = true) := by
  induction l with
  | nil => simp [sortLe]
  | cons z zs ih =>
    simp only [sortLe, List.foldr_cons]
    exact pairwise_insertLe le htot htr z _ ih

theorem sortAsc_pairwise (l : List ℚ) : (sortAsc l).Pairwise (fun a b => a ≤ b) := by
  have h := pairwise_sortLe (fun a b : ℚ => decide (a ≤ b))
    (fun a b => by rcases le_total a b with h | h <;> simp [h])
    (fun a b c h1 h2 => by
      simp only [decide_eq_true_eq] at h1 h2 ⊢
      exact le_trans h1 h2) l
  exact h.imp (fun hab => by simpa using hab)

theorem sortDesc_pairwise (l : List ℚ) : (sortDesc l).Pairwise (fun a b => b ≤ a) := by
  have h := pairwise_sortLe (fun a b : ℚ => decide (b ≤ a))
    (fun a b => by rcases le_total b a with h | h <;> simp [h])
    (fun a b c h1 h2 => by
      simp only [decide_eq_true_eq] at h1 h2 ⊢
      exact le_trans h2 h1) l
  exact h.imp (fun hab => by simpa using hab)

theorem mem_sortAsc (l : List ℚ) (y : ℚ) : y ∈ sortAsc l ↔ y ∈ l :=
  mem_sortLe _ l y

theorem mem_sortDesc (l : List ℚ) (y : ℚ) : y ∈ sortDesc l ↔ y ∈ l :=
  mem_sortLe _ l y

/-! Lemmas about `listMax`/`listMin` (Python `max`/`min` over the price
keys). -/

theorem listMax_spec : ∀ l : List ℚ, l ≠ [] →
    ∃ m, listMax l = some m ∧ m ∈ l ∧ ∀ x ∈ l, x ≤ m := by
  intro l
  induction l with
  | nil => intro h; exact absurd rfl h
  | cons x xs ih =>
    intro _
    cases hxs : xs with
    | nil =>
      refine ⟨x, by simp [listMax], by simp, ?_⟩
      intro y hy
      simp at hy
      simp [hy]
    | cons z zs =>
      rw [← hxs]
      have hne : xs ≠ [] := by simp [hxs]
      obtain ⟨m, hm, hmem, hle⟩ := ih hne
      have hEq : listMax (x :: xs) = some (max x m) := by simp [listMax, hm]
      refine ⟨max x m, hEq, ?_, ?_⟩
      · rcases max_cases x m with ⟨he, _⟩ | ⟨he, _⟩
        · simp [he]
        · rw [he]
          exact List.mem_cons_of_mem _ hmem
      · intro y hy
        rcases List.mem_cons.mp hy with hy | hy
        · exact hy ▸ le_max_left x m
        · exact le_trans (hle y hy) (le_max_right x m)

theorem listMin_spec : ∀ l : List ℚ, l ≠ [] →
    ∃ m, listMin l = some m ∧ m ∈ l ∧ ∀ x ∈ l, m ≤ x := by
  intro l
  induction l with
  | nil => intro h; exact absurd rfl h
  | cons x xs ih =>
    intro _
    cases hxs : xs with
    | nil =>
      refine ⟨x, by simp [listMin], by simp, ?_⟩
      intro y hy
      simp at hy
      simp [hy]
    | cons z zs =>
      rw [← hxs]
      have hne : xs ≠ [] := by simp [hxs]
      obtain ⟨m, hm, hmem, hle⟩ := ih hne
      have hEq : listMin (x :: xs) = some (min x m) := by simp [listMin, hm]
      refine ⟨min x m, hEq, ?_, ?_⟩
      · rcases min_cases x m with ⟨he, _⟩ | ⟨he, _⟩
        · simp [he]
        · rw [he]
          exact List.mem_cons_of_mem _ hmem
      · intro y hy
        rcases List.mem_cons.mp hy with hy | hy
        · exact hy ▸ min_le_left x m
        · exact le_trans (min_le_right x m) (hle y hy)

/-! Lemmas about the `defaultdict` access helpers. -/

theorem alookup_dappend_self (s : Side) (p : ℚ) (o : Order) :
    alookup (dappend p o s) p = some ((alookup s p).getD [] ++ [o]) := by
  induction s with
  | nil => simp [dappend, alookup]
  | cons hd tl ih =>
    obtain ⟨p0, q0⟩ := hd
    by_cases h0 : p0 = p
    · simp [dappend, alookup, h0]
    · simp [dappend, alookup, h0, ih]

theorem alookup_dappend_ne (s : Side) (p p' : ℚ) (o : Order) (h : p' ≠ p) :
    alookup (dappend p o s) p' = alookup s p' := by
  induction s with
  | nil => simp [dappend, alookup, Ne.symm h]
  | cons hd tl ih =>
    obtain ⟨p0, q0⟩ := hd
    by_cases h0 : p0 = p
    · subst h0
      simp [dappend, alookup, Ne.symm h]
    · simp [dappend, alookup, h0, ih]

theorem mem_dappend (s : Side) (p : ℚ) (o : Order) :
    ∀ x ∈ dappend p o s, x ∈ s ∨ ∃ q, x = (p, q ++ [o]) := by
  induction s with
  | nil =>
    intro x hx
    simp only [dappend, List.mem_singleton] at hx
    exact Or.inr ⟨[], by simpa using hx⟩
  | cons hd tl ih =>
    obtain ⟨p0, q0⟩ := hd
    intro x hx
    by_cases h0 : p0 = p
    · subst h0
      have he : dappend p0 o ((p0, q0) :: tl) = (p0, q0 ++ [o]) :: tl := by
        simp [dappend]
      rw [he] at hx
      rcases List.mem_cons.mp hx with hx | hx
      · exact Or.inr ⟨q0, hx⟩
      · exact Or.inl (List.mem_cons_of_mem _ hx)
    · have he : dappend p o ((p0, q0) :: tl) = (p0, q0) :: dappend p o tl := by
        simp [dappend, h0]
      rw [he] at hx
      rcases List.mem_cons.mp hx with hx | hx
      · exact Or.inl (hx ▸ List.mem_cons_self _ _)
      · rcases ih x hx with hh | hh
        · exact Or.inl (List.mem_cons_of_mem _ hh)
        · exact Or.inr hh

theorem dget_of_lookup (s : Side) (p : ℚ) (q : List Order)
    (h : alookup s p = some q) : dget p s = (q, s) := by
  induction s with
  | nil => simp [alookup] at h
  | cons hd tl ih =>
    obtain ⟨p0, q0⟩ := hd
    by_cases h0 : p0 = p
    · simp only [alookup, if_pos h0] at h
      injection h with h
      simp [dget, h0, h]
    · simp only [alookup, if_neg h0] at h
      simp [dget, h0, ih h]

/-! Lemmas about the modelled matching engine. -/

theorem matchQueue_survive (iid : Nat) :
    ∀ (iq : ℤ) (q : List Order), ∀ o ∈ q,
      (∃ o' ∈ (matchQueue iid iq q).2.2.1, o'.id = o.id ∧ o'.price = o.price) ∨
        o.id ∈ (matchQueue iid iq q).2.2.2 := by
  intro iq q
  induction q generalizing iq with
  | nil => intro o ho; simp at ho
  | cons o0 rest ih =>
    intro o ho
    by_cases hiq : iq ≤ 0
    · refine Or.inl ⟨o, ?_, rfl, rfl⟩
      simpa [matchQueue, hiq] using ho
    · by_cases hfill : o0.quantity ≤ iq
      · rcases List.mem_cons.mp ho with ho | ho
        · exact Or.inr (by simp [matchQueue, hiq, hfill, ho])
        · rcases ih (iq - o0.quantity) o ho with ⟨o', ho', hid, hpr⟩ | hrem
          · exact Or.inl ⟨o', by simpa [matchQueue, hiq, hfill] using ho', hid, hpr⟩
          · exact Or.inr (by simp [matchQueue, hiq, hfill]; right; exact hrem)
      · rcases List.mem_cons.mp ho with ho | ho
        · refine Or.inl ⟨{ o0 with quantity := o0.quantity - min iq o0.quantity }, ?_, ?_, ?_⟩
          · simp [matchQueue, hiq, hfill]
          · simp [ho]
          · simp [ho]
        · exact Or.inl ⟨o, by simp [matchQueue, hiq, hfill, ho], rfl, rfl⟩

/-! Lemmas about one level step of the modelled matching engine. -/

theorem levelStep_map_sub (iid : Nat) (iq : ℤ) (p : ℚ) (s : Side) (m : OrderMap)
    (hnd : (akeys m).Nodup) :
    ∀ j v, alookup (levelStep iid iq p s m).2.2.2 j = some v → alookup m j = some v := by
  intro j v h
  exact alookup_foldl_adel_sub _ m hnd j v h

theorem levelStep_keys_sublist (iid : Nat) (iq : ℤ) (p : ℚ) (s : Side) (m : OrderMap) :
    List.Sublist (akeys (levelStep iid iq p s m).2.2.2) (akeys m) :=
  akeys_foldl_adel_sublist _ m

theorem levelStep_map_none (iid : Nat) (iq : ℤ) (p : ℚ) (s : Side) (m : OrderMap)
    (j : Nat) (h : alookup m j = none) :
    alookup (levelStep iid iq p s m).2.2.2 j = none :=
  alookup_none_foldl_adel _ m j h

theorem levelStep_survive (iid : Nat) (iq : ℤ) (p : ℚ) (s : Side) (m : OrderMap)
    (hnd : (akeys m).Nodup) (pp : ℚ) (qq : List Order) (o : Order)
    (hl : alookup s pp = some qq) (ho : o ∈ qq) :
    (∃ qq', alookup (levelStep iid iq p s m).2.2.1 pp = some qq' ∧
        ∃ o' ∈ qq', o'.id = o.id ∧ o'.price = o.price) ∨
      alookup (levelStep iid iq p s m).2.2.2 o.id = none := by
  by_cases hpp : pp = p
  · subst hpp
    have hq : (alookup s pp).getD [] = qq := by simp [hl]
    rcases matchQueue_survive iid iq ((alookup s pp).getD []) o (hq ▸ ho)
      with ⟨o', ho', hid, hpr⟩ | hrem
    · refine Or.inl ⟨(matchQueue iid iq ((alookup s pp).getD [])).2.2.1, ?_, o', ho', hid, hpr⟩
      have hne : ¬(matchQueue iid iq ((alookup s pp).getD [])).2.2.1.isEmpty := by
        intro hcontra
        have hnil : (matchQueue iid iq ((alookup s pp).getD [])).2.2.1 = [] := by
          simpa using hcontra
        rw [hnil] at ho'
        simp at ho'
      simp only [levelStep, if_neg hne]
      exact alookup_aset_self s pp _
    · refine Or.inr ?_
      simp only [levelStep]
      exact alookup_foldl_adel_of_mem _ m hnd o.id hrem
  · refine Or.inl ⟨qq, ?_, o, ho, rfl, rfl⟩
    simp only [levelStep]
    by_cases he : (matchQueue iid iq ((alookup s p).getD [])).2.2.1.isEmpty
    · rw [if_pos he]
      rwa [alookup_adel_ne s p pp hpp]
    · rw [if_neg he]
      rwa [alookup_aset_ne s p pp _ hpp]

theorem levelStep_noempty (iid : Nat) (iq : ℤ) (p : ℚ) (s : Side) (m : OrderMap)
    (hs : ∀ pq ∈ s, pq.2 ≠ []) :
    ∀ pq ∈ (levelStep iid iq p s m).2.2.1, pq.2 ≠ [] := by
  intro pq hpq
  simp only [levelStep] at hpq
  by_cases he : (matchQueue iid iq ((alookup s p).getD [])).2.2.1.isEmpty
  · rw [if_pos he] at hpq
    exact hs pq (mem_adel s p pq hpq)
  · rw [if_neg he] at hpq
    rcases mem_aset s p _ pq hpq with hh | hh
    · exact hs pq hh
    · have hq' : (matchQueue iid iq ((alookup s p).getD [])).2.2.1 ≠ [] := by
        intro hcontra
        exact he (by simp [hcontra])
      rw [hh]
      simpa using hq'

/-! Lemmas about the level walk of the modelled matching engine. -/

theorem matchLoop_cons_cross (iid : Nat) (ib : Bool) (lim : Option ℚ) (iq : ℤ)
    (p : ℚ) (ps : List ℚ) (s : Side) (m : OrderMap)
    (hiq : ¬iq ≤ 0) (hc : crossp ib lim p = true) :
    matchLoop iid ib lim iq (p :: ps) s m =
      ((levelStep iid iq p s m).1 ++
         (matchLoop iid ib lim (levelStep iid iq p s m).2.1 ps
           (levelStep iid iq p s m).2.2.1 (levelStep iid iq p s m).2.2.2).1,
       (matchLoop iid ib lim (levelStep iid iq p s m).2.1 ps
           (levelStep iid iq p s m).2.2.1 (levelStep iid iq p s m).2.2.2).2.1,
       (matchLoop iid ib lim (levelStep iid iq p s m).2.1 ps
           (levelStep iid iq p s m).2.2.1 (levelStep iid iq p s m).2.2.2).2.2.1,
       (matchLoop iid ib lim (levelStep iid iq p s m).2.1 ps
           (levelStep iid iq p s m).2.2.1 (levelStep iid iq p s m).2.2.2).2.2.2) := by
  simp [matchLoop, hiq, hc]

theorem matchLoop_halt (iid : Nat) (ib : Bool) (lim : Option ℚ) (iq : ℤ)
    (p : ℚ) (ps : List ℚ) (s : Side) (m : OrderMap)
    (h : iq ≤ 0 ∨ crossp ib lim p = false) :
    matchLoop iid ib lim iq (p :: ps) s m = ([], iq, s, m) := by
  rcases h with h | h
  · simp [matchLoop, h]
  · by_cases hiq : iq ≤ 0
    · simp [matchLoop, hiq]
    · simp [matchLoop, hiq, h]

theorem matchLoop_map_props (iid : Nat) (ib : Bool) (lim : Option ℚ) :
    ∀ (ps : List ℚ) (iq : ℤ) (s : Side) (m : OrderMap), (akeys m).Nodup →
      (∀ j v, alookup (matchLoop iid ib lim iq ps s m).2.2.2 j = some v →
          alookup m j = some v) ∧
        List.Sublist (akeys (matchLoop iid ib lim iq ps s m).2.2.2) (akeys m) := by
  intro ps
  induction ps with
  | nil =>
    intro iq s m hnd
    exact ⟨fun j v h => by simpa [matchLoop] using h, by simp [matchLoop]⟩
  | cons p rest ih =>
    intro iq s m hnd
    by_cases hiq : iq ≤ 0
    · rw [matchLoop_halt iid ib lim iq p rest s m (Or.inl hiq)]
      exact ⟨fun j v h => h, List.Sublist.refl _⟩
    · by_cases hc : crossp ib lim p
      · rw [matchLoop_cons_cross iid ib lim iq p rest s m hiq hc]
        have hsub := levelStep_keys_sublist iid iq p s m
        have hnd' : (akeys (levelStep iid iq p s m).2.2.2).Nodup := hnd.sublist hsub
        obtain ⟨hmap, hkeys⟩ := ih (levelStep iid iq p s m).2.1
          (levelStep iid iq p s m).2.2.1 (levelStep iid iq p s m).2.2.2 hnd'
        constructor
        · intro j v h
          exact levelStep_map_sub iid iq p s m hnd j v (hmap j v h)
        · exact hkeys.trans hsub
      · rw [matchLoop_halt iid ib lim iq p rest s m
          (Or.inr (by simpa using hc))]
        exact ⟨fun j v h => h, List.Sublist.refl _⟩

theorem matchLoop_map_none (iid : Nat) (ib : Bool) (lim : Option ℚ) :
    ∀ (ps : List ℚ) (iq : ℤ) (s : Side) (m : OrderMap) (j : Nat),
      alookup m j = none → alookup (matchLoop iid ib lim iq ps s m).2.2.2 j = none := by
  intro ps
  induction ps with
  | nil =>
    intro iq s m j h
    simpa [matchLoop] using h
  | cons p rest ih =>
    intro iq s m j h
    by_cases hiq : iq ≤ 0
    · rw [matchLoop_halt iid ib lim iq p rest s m (Or.inl hiq)]
      exact h
    · by_cases hc : crossp ib lim p
      · rw [matchLoop_cons_cross iid ib lim iq p rest s m hiq hc]
        exact ih _ _ _ j (levelStep_map_none iid iq p s m j h)
      · rw [matchLoop_halt iid ib lim iq p rest s m (Or.inr (by simpa using hc))]
        exact h

theorem matchLoop_survive (iid : Nat) (ib : Bool) (lim : Option ℚ) :
    ∀ (ps : List ℚ) (iq : ℤ) (s : Side) (m : OrderMap), (akeys m).Nodup →
      ∀ (pp : ℚ) (qq : List Order) (o : Order), alookup s pp = some qq → o ∈ qq →
        (∃ qq', alookup (matchLoop iid ib lim iq ps s m).2.2.1 pp = some qq' ∧
            ∃ o' ∈ qq', o'.id = o.id ∧ o'.price = o.price) ∨
          alookup (matchLoop iid ib lim iq ps s m).2.2.2 o.id = none := by
  intro ps
  induction ps with
  | nil =>
    intro iq s m hnd pp qq o hl ho
    exact Or.inl ⟨qq, by simpa [matchLoop] using hl, o, ho, rfl, rfl⟩
  | cons p rest ih =>
    intro iq s m hnd pp qq o hl ho
    by_cases hiq : iq ≤ 0
    · rw [matchLoop_halt iid ib lim iq p rest s m (Or.inl hiq)]
      exact Or.inl ⟨qq, hl, o, ho, rfl, rfl⟩
    · by_cases hc : crossp ib lim p
      · rw [matchLoop_cons_cross iid ib lim iq p rest s m hiq hc]
        have hnd' : (akeys (levelStep iid iq p s m).2.2.2).Nodup :=
          hnd.sublist (levelStep_keys_sublist iid iq p s m)
        rcases levelStep_survive iid iq p s m hnd pp qq o hl ho
          with ⟨qq', hl', o', ho', hid, hpr⟩ | hnone
        · rcases ih (levelStep iid iq p s m).2.1 (levelStep iid iq p s m).2.2.1
            (levelStep iid iq p s m).2.2.2 hnd' pp qq' o' hl' ho'
            with ⟨qq'', hl'', o'', ho'', hid', hpr'⟩ | hnone'
          · exact Or.inl ⟨qq'', hl'', o'', ho'', hid'.trans hid, hpr'.trans hpr⟩
          · exact Or.inr (hid ▸ hnone')
        · exact Or.inr (matchLoop_map_none iid ib lim rest _ _ _ o.id hnone)
      · rw [matchLoop_halt iid ib lim iq p rest s m (Or.inr (by simpa using hc))]
        exact Or.inl ⟨qq, hl, o, ho, rfl, rfl⟩

theorem matchLoop_noempty (iid : Nat) (ib : Bool) (lim : Option ℚ) :
    ∀ (ps : List ℚ) (iq : ℤ) (s : Side) (m : OrderMap),
      (∀ pq ∈ s, pq.2 ≠ []) → ∀ pq ∈ (matchLoop iid ib lim iq ps s m).2.2.1, pq.2 ≠ [] := by
  intro ps
  induction ps with
  | nil =>
    intro iq s m hs pq hpq
    exact hs pq (by simpa [matchLoop] using hpq)
  | cons p rest ih =>
    intro iq s m hs pq hpq
    by_cases hiq : iq ≤ 0
    · rw [matchLoop_halt iid ib lim iq p rest s m (Or.inl hiq)] at hpq
      exact hs pq hpq
    · by_cases hc : crossp ib lim p
      · rw [matchLoop_cons_cross iid ib lim iq p rest s m hiq hc] at hpq
        exact ih _ _ _ (levelStep_noempty iid iq p s m hs) pq hpq
      · rw [matchLoop_halt iid ib lim iq p rest s m (Or.inr (by simpa using hc))] at hpq
        exact hs pq hpq

/-! Characterisation of the embedded operations in the forms the invariant
proofs use. -/

theorem match_order_eq (o : Order) (s : Side) (m : OrderMap) :
    match_order o s m = matchLoop o.id o.is_buy (some o.price) o.quantity
      (if o.is_buy then sortAsc (akeys s) else sortDesc (akeys s)) s m := by
  by_cases h : o.is_buy <;> simp [match_order, h]

/-- The head-pop branch of `OrderBook.cancel_order` is unreachable: the
guard compares an `Order` with an `int`, which is always `False` in Python;
the operation therefore only deletes the id from the order index. -/
theorem cancel_order_eq (b : OrderBook) (i : Nat) :
    b.cancel_order i =
      match alookup b.order_map i with
      | none => (false, b)
      | some _ => (true, { b with order_map := adel b.order_map i }) := by
  cases h : alookup b.order_map i with
  | none => simp [OrderBook.cancel_order, h]
  | some pv =>
    obtain ⟨p, ib⟩ := pv
    cases h2 : alookup (if ib then b.bids else b.asks) p with
    | none => simp [OrderBook.cancel_order, h, h2]
    | some q =>
      cases q with
      | nil => simp [OrderBook.cancel_order, h, h2]
      | cons o rest => simp [OrderBook.cancel_order, h, h2, orderEqId]

theorem add_order_fields_buy_rest (b : OrderBook) (o : Order) (hbuy : o.is_buy = true)
    (hr : 0 < (match_order o b.asks b.order_map).2.1) :
    (b.add_order o).2.bids =
        dappend o.price { o with quantity := (match_order o b.asks b.order_map).2.1 } b.bids ∧
      (b.add_order o).2.asks = (match_order o b.asks b.order_map).2.2.1 ∧
      (b.add_order o).2.order_map =
        aset (match_order o b.asks b.order_map).2.2.2 o.id (o.price, o.is_buy) := by
  refine ⟨?_, ?_, ?_⟩ <;> simp [OrderBook.add_order, hbuy, hr]

theorem add_order_fields_buy_norest (b : OrderBook) (o : Order) (hbuy : o.is_buy = true)
    (hr : ¬0 < (match_order o b.asks b.order_map).2.1) :
    (b.add_order o).2.bids = b.bids ∧
      (b.add_order o).2.asks = (match_order o b.asks b.order_map).2.2.1 ∧
      (b.add_order o).2.order_map = (match_order o b.asks b.order_map).2.2.2 := by
  refine ⟨?_, ?_, ?_⟩ <;> simp [OrderBook.add_order, hbuy, hr]

theorem add_order_fields_sell_rest (b : OrderBook) (o : Order) (hbuy : o.is_buy = false)
    (hr : 0 < (match_order o b.bids b.order_map).2.1) :
    (b.add_order o).2.bids = (match_order o b.bids b.order_map).2.2.1 ∧
      (b.add_order o).2.asks =
        dappend o.price { o with quantity := (match_order o b.bids b.order_map).2.1 } b.asks ∧
      (b.add_order o).2.order_map =
        aset (match_order o b.bids b.order_map).2.2.2 o.id (o.price, o.is_buy) := by
  refine ⟨?_, ?_, ?_⟩ <;> simp [OrderBook.add_order, hbuy, hr]

theorem add_order_fields_sell_norest (b : OrderBook) (o : Order) (hbuy : o.is_buy = false)
    (hr : ¬0 < (match_order o b.bids b.order_map).2.1) :
    (b.add_order o).2.bids = (match_order o b.bids b.order_map).2.2.1 ∧
      (b.add_order o).2.asks = b.asks ∧
      (b.add_order o).2.order_map = (match_order o b.bids b.order_map).2.2.2 := by
  refine ⟨?_, ?_, ?_⟩ <;> simp [OrderBook.add_order, hbuy, hr]

theorem market_fields_buy (b : OrderBook) (qty : ℤ) :
    (b.execute_market_order true qty).2.bids = b.bids ∧
      (b.execute_market_order true qty).2.asks =
        (matchLoop 0 true none qty (sortAsc (akeys b.asks)) b.asks b.order_map).2.2.1 ∧
      (b.execute_market_order true qty).2.order_map =
        (matchLoop 0 true none qty (sortAsc (akeys b.asks)) b.asks b.order_map).2.2.2 := by
  refine ⟨?_, ?_, ?_⟩ <;> simp [OrderBook.execute_market_order]

theorem market_fields_sell (b : OrderBook) (qty : ℤ) :
    (b.execute_market_order false qty).2.bids =
        (matchLoop 0 false none qty (sortDesc (akeys b.bids)) b.bids b.order_map).2.2.1 ∧
      (b.execute_market_order false qty).2.asks = b.asks ∧
      (b.execute_market_order false qty).2.order_map =
        (matchLoop 0 false none qty (sortDesc (akeys b.bids)) b.bids b.order_map).2.2.2 := by
  refine ⟨?_, ?_, ?_⟩ <;> simp [OrderBook.execute_market_order]

theorem cancel_pres (b : OrderBook) (i : Nat) (h : MapND b ∧ IdxInv b) :
    MapND (b.cancel_order i).2 ∧ IdxInv (b.cancel_order i).2 := by
  rw [cancel_order_eq]
  cases hl : alookup b.order_map i with
  | none => exact h
  | some pv =>
    constructor
    · exact nodup_akeys_adel _ i h.1
    · intro j p bu hj
      simp only at hj
      exact h.2 j p bu (alookup_adel_sub _ i j _ h.1 hj)

/-- Preservation of the index invariants by one matching pass against the
side `s`; `tag` marks which side of the book `s` is (`true` for bids), so
that index entries with `bu = tag` are the ones resting in `s`. -/
theorem match_pres_generic (iid : Nat) (ib tag : Bool) (lim : Option ℚ) (ps : List ℚ)
    (iq : ℤ) (s : Side) (m : OrderMap) (hnd : (akeys m).Nodup)
    (hinv : ∀ i p bu, alookup m i = some (p, bu) → bu = tag →
      ∃ q, alookup s p = some q ∧ ∃ o ∈ q, o.id = i ∧ o.price = p) :
    (akeys (matchLoop iid ib lim iq ps s m).2.2.2).Nodup ∧
    (∀ i p bu, alookup (matchLoop iid ib lim iq ps s m).2.2.2 i = some (p, bu) →
      alookup m i = some (p, bu)) ∧
    (∀ i p bu, alookup (matchLoop iid ib lim iq ps s m).2.2.2 i = some (p, bu) → bu = tag →
      ∃ q, alookup (matchLoop iid ib lim iq ps s m).2.2.1 p = some q ∧
        ∃ o ∈ q, o.id = i ∧ o.price = p) := by
  obtain ⟨hsub, hkeys⟩ := matchLoop_map_props iid ib lim ps iq s m hnd
  refine ⟨hnd.sublist hkeys, fun i p bu hj => hsub i _ hj, ?_⟩
  intro i p bu hj hbu
  obtain ⟨q, hq, o, ho, hid, hpr⟩ := hinv i p bu (hsub i _ hj) hbu
  rcases matchLoop_survive iid ib lim ps iq s m hnd p q o hq ho
    with ⟨qq', hl', o', ho', hid', hpr'⟩ | hnone
  · exact ⟨qq', hl', o', ho', by rw [hid', hid], by rw [hpr', hpr]⟩
  · rw [hid] at hnone
    rw [hnone] at hj
    exact absurd hj (by simp)

theorem market_pres (b : OrderBook) (ib : Bool) (qty : ℤ) (h : MapND b ∧ IdxInv b) :
    MapND (b.execute_market_order ib qty).2 ∧ IdxInv (b.execute_market_order ib qty).2 := by
  cases ib
  · obtain ⟨hb, ha, hm⟩ := market_fields_sell b qty
    obtain ⟨hnd', hsub, hmatched⟩ := match_pres_generic 0 false true none
      (sortDesc (akeys b.bids)) qty b.bids b.order_map h.1
      (fun i p bu hl hbu => by
        obtain ⟨q, hq, hrest⟩ := h.2 i p bu hl
        exact ⟨q, by simpa [hbu] using hq, hrest⟩)
    constructor
    · rw [MapND, hm]
      exact hnd'
    · intro i p bu hj
      rw [hm] at hj
      cases bu
      · obtain ⟨q, hq, hrest⟩ := h.2 i p false (hsub i p false hj)
        refine ⟨q, ?_, hrest⟩
        simp only [Bool.false_eq_true, if_false] at hq ⊢
        rw [ha]
        exact hq
      · obtain ⟨q, hq, hrest⟩ := hmatched i p true hj rfl
        refine ⟨q, ?_, hrest⟩
        simp only [if_true]
        rw [hb]
        exact hq
  · obtain ⟨hb, ha, hm⟩ := market_fields_buy b qty
    obtain ⟨hnd', hsub, hmatched⟩ := match_pres_generic 0 true false none
      (sortAsc (akeys b.asks)) qty b.asks b.order_map h.1
      (fun i p bu hl hbu => by
        obtain ⟨q, hq, hrest⟩ := h.2 i p bu hl
        exact ⟨q, by simpa [hbu] using hq, hrest⟩)
    constructor
    · rw [MapND, hm]
      exact hnd'
    · intro i p bu hj
      rw [hm] at hj
      cases bu
      · obtain ⟨q, hq, hrest⟩ := hmatched i p false hj rfl
        refine ⟨q, ?_, hrest⟩
        simp only [Bool.false_eq_true, if_false]
        rw [ha]
        exact hq
      · obtain ⟨q, hq, hrest⟩ := h.2 i p true (hsub i p true hj)
        refine ⟨q, ?_, hrest⟩
        simp only [if_true] at hq ⊢
        rw [hb]
        exact hq

theorem add_pres (b : OrderBook) (o : Order) (h : MapND b ∧ IdxInv b) :
    MapND (b.add_order o).2 ∧ IdxInv (b.add_order o).2 := by
  cases hbuy : o.is_buy
  · -- incoming sell: matched side is the bid side (tag true), rest side asks
    have hM : match_order o b.bids b.order_map =
        matchLoop o.id o.is_buy (some o.price) o.quantity
          (sortDesc (akeys b.bids)) b.bids b.order_map := by
      rw [match_order_eq, hbuy]
      simp
    obtain ⟨hnd', hsub, hmatched⟩ := match_pres_generic o.id o.is_buy true (some o.price)
      (sortDesc (akeys b.bids)) o.quantity b.bids b.order_map h.1
      (fun i p bu hl hbu => by
        obtain ⟨q, hq, hrest⟩ := h.2 i p bu hl
        exact ⟨q, by simpa [hbu] using hq, hrest⟩)
    by_cases hr : 0 < (match_order o b.bids b.order_map).2.1
    · obtain ⟨hb, ha, hm⟩ := add_order_fields_sell_rest b o hbuy hr
      simp only [hM] at hb ha hm
      constructor
      · rw [MapND, hm]
        exact nodup_akeys_aset _ o.id _ hnd'
      · intro i p bu hj
        rw [hm] at hj
        by_cases hio : i = o.id
        · subst hio
          rw [alookup_aset_self] at hj
          have hp : p = o.price := by
            injection hj with hj'
            exact (congrArg Prod.fst hj').symm
          have hbu : bu = o.is_buy := by
            injection hj with hj'
            exact (congrArg Prod.snd hj').symm
          rw [hbu, hbuy]
          simp only [Bool.false_eq_true, if_false]
          rw [ha, hp]
          refine ⟨(alookup b.asks o.price).getD [] ++
              [{ o with quantity := (matchLoop o.id o.is_buy (some o.price) o.quantity
                (sortDesc (akeys b.bids)) b.bids b.order_map).2.1 }],
            alookup_dappend_self b.asks o.price _,
            { o with quantity := (matchLoop o.id o.is_buy (some o.price) o.quantity
                (sortDesc (akeys b.bids)) b.bids b.order_map).2.1 },
            List.mem_append_right _ (by simp), rfl, rfl⟩
        · rw [alookup_aset_ne _ o.id i _ hio] at hj
          cases bu
          · -- resting on the ask side (untouched by the sell match, extended by the rest)
            obtain ⟨q, hq, oo, hoo, hid, hpr⟩ := h.2 i p false (hsub i p false hj)
            simp only [Bool.false_eq_true, if_false] at hq ⊢
            rw [ha]
            by_cases hpo : p = o.price
            · subst hpo
              refine ⟨(alookup b.asks o.price).getD [] ++
                  [{ o with quantity := (matchLoop o.id o.is_buy (some o.price) o.quantity
                    (sortDesc (akeys b.bids)) b.bids b.order_map).2.1 }],
                alookup_dappend_self b.asks o.price _, oo, ?_, hid, hpr⟩
              refine List.mem_append_left _ ?_
              simpa [hq] using hoo
            · rw [alookup_dappend_ne b.asks o.price p _ hpo]
              exact ⟨q, hq, oo, hoo, hid, hpr⟩
          · -- resting on the bid side: survived the match
            obtain ⟨q, hq, hrest⟩ := hmatched i p true hj rfl
            refine ⟨q, ?_, hrest⟩
            simp only [if_true]
            rw [hb]
            exact hq
    · obtain ⟨hb, ha, hm⟩ := add_order_fields_sell_norest b o hbuy hr
      simp only [hM] at hb ha hm
      constructor
      · rw [MapND, hm]
        exact hnd'
      · intro i p bu hj
        rw [hm] at hj
        cases bu
        · obtain ⟨q, hq, hrest⟩ := h.2 i p false (hsub i p false hj)
          refine ⟨q, ?_, hrest⟩
          simp only [Bool.false_eq_true, if_false] at hq ⊢
          rw [ha]
          exact hq
        · obtain ⟨q, hq, hrest⟩ := hmatched i p true hj rfl
          refine ⟨q, ?_, hrest⟩
          simp only [if_true]
          rw [hb]
          exact hq
  · -- incoming buy: matched side is the ask side (tag false), rest side bids
    have hM : match_order o b.asks b.order_map =
        matchLoop o.id o.is_buy (some o.price) o.quantity
          (sortAsc (akeys b.asks)) b.asks b.order_map := by
      rw [match_order_eq, hbuy]
      simp
    obtain ⟨hnd', hsub, hmatched⟩ := match_pres_generic o.id o.is_buy false (some o.price)
      (sortAsc (akeys b.asks)) o.quantity b.asks b.order_map h.1
      (fun i p bu hl hbu => by
        obtain ⟨q, hq, hrest⟩ := h.2 i p bu hl
        exact ⟨q, by simpa [hbu] using hq, hrest⟩)
    by_cases hr : 0 < (match_order o b.asks b.order_map).2.1
    · obtain ⟨hb, ha, hm⟩ := add_order_fields_buy_rest b o hbuy hr
      simp only [hM] at hb ha hm
      constructor
      · rw [MapND, hm]
        exact nodup_akeys_aset _ o.id _ hnd'
      · intro i p bu hj
        rw [hm] at hj
        by_cases hio : i = o.id
        · subst hio
          rw [alookup_aset_self] at hj
          have hp : p = o.price := by
            injection hj with hj'
            exact (congrArg Prod.fst hj').symm
          have hbu : bu = o.is_buy := by
            injection hj with hj'
            exact (congrArg Prod.snd hj').symm
          rw [hbu, hbuy]
          simp only [if_true]
          rw [hb, hp]
          refine ⟨(alookup b.bids o.price).getD [] ++
              [{ o with quantity := (matchLoop o.id o.is_buy (some o.price) o.quantity
                (sortAsc (akeys b.asks)) b.asks b.order_map).2.1 }],
            alookup_dappend_self b.bids o.price _,
            { o with quantity := (matchLoop o.id o.is_buy (some o.price) o.quantity
                (sortAsc (akeys b.asks)) b.asks b.order_map).2.1 },
            List.mem_append_right _ (by simp), rfl, rfl⟩
        · rw [alookup_aset_ne _ o.id i _ hio] at hj
          cases bu
          · -- resting on the ask side: survived the match
            obtain ⟨q, hq, hrest⟩ := hmatched i p false hj rfl
            refine ⟨q, ?_, hrest⟩
            simp only [Bool.false_eq_true, if_false]
            rw [ha]
            exact hq
          · -- resting on the bid side (untouched by the buy match, extended by the rest)
            obtain ⟨q, hq, oo, hoo, hid, hpr⟩ := h.2 i p true (hsub i p true hj)
            simp only [if_true] at hq ⊢
            rw [hb]
            by_cases hpo : p = o.price
            · subst hpo
              refine ⟨(alookup b.bids o.price).getD [] ++
                  [{ o with quantity := (matchLoop o.id o.is_buy (some o.price) o.quantity
                    (sortAsc (akeys b.asks)) b.asks b.order_map).2.1 }],
                alookup_dappend_self b.bids o.price _, oo, ?_, hid, hpr⟩
              refine List.mem_append_left _ ?_
              simpa [hq] using hoo
            · rw [alookup_dappend_ne b.bids o.price p _ hpo]
              exact ⟨q, hq, oo, hoo, hid, hpr⟩
    · obtain ⟨hb, ha, hm⟩ := add_order_fields_buy_norest b o hbuy hr
      simp only [hM] at hb ha hm
      constructor
      · rw [MapND, hm]
        exact hnd'
      · intro i p bu hj
        rw [hm] at hj
        cases bu
        · obtain ⟨q, hq, hrest⟩ := hmatched i p false hj rfl
          refine ⟨q, ?_, hrest⟩
          simp only [Bool.false_eq_true, if_false]
          rw [ha]
          exact hq
        · obtain ⟨q, hq, hrest⟩ := h.2 i p true (hsub i p true hj)
          refine ⟨q, ?_, hrest⟩
          simp only [if_true] at hq ⊢
          rw [hb]
          exact hq

theorem dappend_noempty (s : Side) (p : ℚ) (o : Order) (hs : NoEmptyLevels s) :
    NoEmptyLevels (dappend p o s) := by
  intro pq hpq
  rcases mem_dappend s p o pq hpq with hh | ⟨q, he⟩
  · exact hs pq hh
  · rw [he]
    simp

theorem add_noempty (b : OrderBook) (o : Order)
    (hb : NoEmptyLevels b.bids) (ha : NoEmptyLevels b.asks) :
    NoEmptyLevels (b.add_order o).2.bids ∧ NoEmptyLevels (b.add_order o).2.asks := by
  cases hbuy : o.is_buy
  · have hM : match_order o b.bids b.order_map =
        matchLoop o.id o.is_buy (some o.price) o.quantity
          (sortDesc (akeys b.bids)) b.bids b.order_map := by
      rw [match_order_eq, hbuy]
      simp
    have hml := matchLoop_noempty o.id o.is_buy (some o.price)
      (sortDesc (akeys b.bids)) o.quantity b.bids b.order_map hb
    by_cases hr : 0 < (match_order o b.bids b.order_map).2.1
    · obtain ⟨hbf, haf, _⟩ := add_order_fields_sell_rest b o hbuy hr
      simp only [hM] at hbf haf
      constructor
      · rw [hbf]
        exact hml
      · rw [haf]
        exact dappend_noempty b.asks o.price _ ha
    · obtain ⟨hbf, haf, _⟩ := add_order_fields_sell_norest b o hbuy hr
      simp only [hM] at hbf haf
      constructor
      · rw [hbf]
        exact hml
      · rw [haf]
        exact ha
  · have hM : match_order o b.asks b.order_map =
        matchLoop o.id o.is_buy (some o.price) o.quantity
          (sortAsc (akeys b.asks)) b.asks b.order_map := by
      rw [match_order_eq, hbuy]
      simp
    have hml := matchLoop_noempty o.id o.is_buy (some o.price)
      (sortAsc (akeys b.asks)) o.quantity b.asks b.order_map ha
    by_cases hr : 0 < (match_order o b.asks b.order_map).2.1
    · obtain ⟨hbf, haf, _⟩ := add_order_fields_buy_rest b o hbuy hr
      simp only [hM] at hbf haf
      constructor
      · rw [hbf]
        exact dappend_noempty b.bids o.price _ hb
      · rw [haf]
        exact hml
    · obtain ⟨hbf, haf, _⟩ := add_order_fields_buy_norest b o hbuy hr
      simp only [hM] at hbf haf
      constructor
      · rw [hbf]
        exact hb
      · rw [haf]
        exact hml

theorem cancel_noempty (b : OrderBook) (i : Nat)
    (hb : NoEmptyLevels b.bids) (ha : NoEmptyLevels b.asks) :
    NoEmptyLevels (b.cancel_order i).2.bids ∧ NoEmptyLevels (b.cancel_order i).2.asks := by
  rw [cancel_order_eq]
  cases hl : alookup b.order_map i with
  | none => exact ⟨hb, ha⟩
  | some pv => exact ⟨hb, ha⟩

theorem market_noempty (b : OrderBook) (ib : Bool) (qty : ℤ)
    (hb : NoEmptyLevels b.bids) (ha : NoEmptyLevels b.asks) :
    NoEmptyLevels (b.execute_market_order ib qty).2.bids ∧
      NoEmptyLevels (b.execute_market_order ib qty).2.asks := by
  cases ib
  · obtain ⟨hbf, haf, _⟩ := market_fields_sell b qty
    constructor
    · rw [hbf]
      exact matchLoop_noempty 0 false none _ qty b.bids b.order_map hb
    · rw [haf]
      exact ha
  · obtain ⟨hbf, haf, _⟩ := market_fields_buy b qty
    constructor
    · rw [hbf]
      exact hb
    · rw [haf]
      exact matchLoop_noempty 0 true none _ qty b.asks b.order_map ha

/-! The two invariants hold in every state reachable from the empty book. -/

theorem applyOp_pres (b : OrderBook) (op : Op) (h : MapND b ∧ IdxInv b) :
    MapND (applyOp b op) ∧ IdxInv (applyOp b op) := by
  cases op with
  | add o => exact add_pres b o h
  | cancel i => exact cancel_pres b i h
  | market ib q => exact market_pres b ib q h

theorem applyOp_noempty (b : OrderBook) (op : Op)
    (h : NoEmptyLevels b.bids ∧ NoEmptyLevels b.asks) :
    NoEmptyLevels (applyOp b op).bids ∧ NoEmptyLevels (applyOp b op).asks := by
  cases op with
  | add o => exact add_noempty b o h.1 h.2
  | cancel i => exact cancel_noempty b i h.1 h.2
  | market ib q => exact market_noempty b ib q h.1 h.2

theorem runOps_inv (ops : List Op) : MapND (runOps ops) ∧ IdxInv (runOps ops) := by
  have hgen : ∀ (l : List Op) (b : OrderBook), MapND b ∧ IdxInv b →
      MapND (List.foldl applyOp b l) ∧ IdxInv (List.foldl applyOp b l) := by
    intro l
    induction l with
    | nil => intro b h; exact h
    | cons op rest ih =>
      intro b h
      exact ih (applyOp b op) (applyOp_pres b op h)
  refine hgen ops OrderBook.empty ⟨?_, ?_⟩
  · simp [MapND, OrderBook.empty, akeys]
  · intro i p bu hl
    simp [OrderBook.empty, alookup] at hl

theorem runOps_noempty (ops : List Op) :
    NoEmptyLevels (runOps ops).bids ∧ NoEmptyLevels (runOps ops).asks := by
  have hgen : ∀ (l : List Op) (b : OrderBook),
      NoEmptyLevels b.bids ∧ NoEmptyLevels b.asks →
      NoEmptyLevels (List.foldl applyOp b l).bids ∧
        NoEmptyLevels (List.foldl applyOp b l).asks := by
    intro l
    induction l with
    | nil => intro b h; exact h
    | cons op rest ih =>
      intro b h
      exact ih (applyOp b op) (applyOp_noempty b op h)
  refine hgen ops OrderBook.empty ⟨?_, ?_⟩
  · intro pq hpq
    simp [OrderBook.empty] at hpq
  · intro pq hpq
    simp [OrderBook.empty] at hpq

/-! Branch equations and quantitative lemmas for the modelled per-queue
matching. -/

theorem matchQueue_stop (iid : Nat) (iq : ℤ) (o : Order) (rest : List Order)
    (h : iq ≤ 0) : matchQueue iid iq (o :: rest) = ([], iq, o :: rest, []) := by
  simp [matchQueue, h]

theorem matchQueue_fill (iid : Nat) (iq : ℤ) (o : Order) (rest : List Order)
    (h1 : ¬iq ≤ 0) (h2 : o.quantity ≤ iq) :
    matchQueue iid iq (o :: rest) =
      (⟨o.id, iid, o.price, o.quantity⟩ :: (matchQueue iid (iq - o.quantity) rest).1,
       (matchQueue iid (iq - o.quantity) rest).2.1,
       (matchQueue iid (iq - o.quantity) rest).2.2.1,
       o.id :: (matchQueue iid (iq - o.quantity) rest).2.2.2) := by
  simp [matchQueue, h1, h2, min_eq_right h2]

theorem matchQueue_partialFill (iid : Nat) (iq : ℤ) (o : Order) (rest : List Order)
    (h1 : ¬iq ≤ 0) (h2 : ¬o.quantity ≤ iq) :
    matchQueue iid iq (o :: rest) =
      ([⟨o.id, iid, o.price, iq⟩], 0,
       { o with quantity := o.quantity - iq } :: rest, []) := by
  have hmin : min iq o.quantity = iq := min_eq_left (le_of_not_le h2)
  simp [matchQueue, h1, h2, hmin]

theorem matchQueue_conserve (iid : Nat) :
    ∀ (iq : ℤ) (q : List Order),
      ((matchQueue iid iq q).1.map Trade.quantity).sum = iq - (matchQueue iid iq q).2.1 := by
  intro iq q
  induction q generalizing iq with
  | nil => simp [matchQueue]
  | cons o rest ih =>
    by_cases hiq : iq ≤ 0
    · rw [matchQueue_stop iid iq o rest hiq]
      simp
    · by_cases hfill : o.quantity ≤ iq
      · rw [matchQueue_fill iid iq o rest hiq hfill]
        have := ih (iq - o.quantity)
        simp only [List.map_cons, List.sum_cons]
        rw [this]
        ring
      · rw [matchQueue_partialFill iid iq o rest hiq hfill]
        simp

theorem matchQueue_final_bounds (iid : Nat) :
    ∀ (iq : ℤ) (q : List Order), 0 ≤ iq → (∀ o ∈ q, 0 < o.quantity) →
      0 ≤ (matchQueue iid iq q).2.1 ∧ (matchQueue iid iq q).2.1 ≤ iq := by
  intro iq q
  induction q generalizing iq with
  | nil => intro h _; simp [matchQueue, h]
  | cons o rest ih =>
    intro h hpos
    by_cases hiq : iq ≤ 0
    · rw [matchQueue_stop iid iq o rest hiq]
      simp [h]
    · by_cases hfill : o.quantity ≤ iq
      · rw [matchQueue_fill iid iq o rest hiq hfill]
        have hq0 : 0 < o.quantity := hpos o (List.mem_cons_self _ _)
        obtain ⟨ha, hb⟩ := ih (iq - o.quantity) (by omega)
          (fun o' ho' => hpos o' (List.mem_cons_of_mem _ ho'))
        dsimp only
        constructor
        · exact ha
        · omega
      · rw [matchQueue_partialFill iid iq o rest hiq hfill]
        simp [h]

theorem matchQueue_trades (iid : Nat) :
    ∀ (iq : ℤ) (q : List Order), (∀ o ∈ q, 0 < o.quantity) →
      ∀ t ∈ (matchQueue iid iq q).1, ∃ o ∈ q,
        t.resting_id = o.id ∧ t.incoming_id = iid ∧ t.price = o.price ∧
          0 < t.quantity ∧ t.quantity ≤ o.quantity := by
  intro iq q
  induction q generalizing iq with
  | nil => intro _ t ht; simp [matchQueue] at ht
  | cons o rest ih =>
    intro hpos t ht
    by_cases hiq : iq ≤ 0
    · rw [matchQueue_stop iid iq o rest hiq] at ht
      simp at ht
    · by_cases hfill : o.quantity ≤ iq
      · rw [matchQueue_fill iid iq o rest hiq hfill] at ht
        rcases List.mem_cons.mp ht with ht | ht
        · refine ⟨o, List.mem_cons_self _ _, ?_⟩
          rw [ht]
          exact ⟨rfl, rfl, rfl, hpos o (List.mem_cons_self _ _), le_refl _⟩
        · obtain ⟨oo, hoo, hrest⟩ := ih (iq - o.quantity)
            (fun o' ho' => hpos o' (List.mem_cons_of_mem _ ho')) t ht
          exact ⟨oo, List.mem_cons_of_mem _ hoo, hrest⟩
      · rw [matchQueue_partialFill iid iq o rest hiq hfill] at ht
        rcases List.mem_singleton.mp ht with ht
        refine ⟨o, List.mem_cons_self _ _, ?_⟩
        rw [ht]
        refine ⟨rfl, rfl, rfl, ?_, ?_⟩ <;> dsimp only <;> omega

theorem matchQueue_out_pos (iid : Nat) :
    ∀ (iq : ℤ) (q : List Order), (∀ o ∈ q, 0 < o.quantity) →
      ∀ o ∈ (matchQueue iid iq q).2.2.1, 0 < o.quantity := by
  intro iq q
  induction q generalizing iq with
  | nil => intro _ o ho; simp [matchQueue] at ho
  | cons o0 rest ih =>
    intro hpos o ho
    by_cases hiq : iq ≤ 0
    · rw [matchQueue_stop iid iq o0 rest hiq] at ho
      exact hpos o ho
    · by_cases hfill : o0.quantity ≤ iq
      · rw [matchQueue_fill iid iq o0 rest hiq hfill] at ho
        exact ih (iq - o0.quantity)
          (fun o' ho' => hpos o' (List.mem_cons_of_mem _ ho')) o ho
      · rw [matchQueue_partialFill iid iq o0 rest hiq hfill] at ho
        rcases List.mem_cons.mp ho with ho | ho
        · rw [ho]
          dsimp only
          omega
        · exact hpos o (List.mem_cons_of_mem _ ho)

theorem matchQueue_head (iid : Nat) (iq : ℤ) (o : Order) (rest : List Order)
    (h : 0 < iq) :
    (matchQueue iid iq (o :: rest)).1.head? =
      some ⟨o.id, iid, o.price, min iq o.quantity⟩ := by
  have hiq : ¬iq ≤ 0 := by omega
  by_cases hfill : o.quantity ≤ iq
  · rw [matchQueue_fill iid iq o rest hiq hfill]
    simp [min_eq_right hfill]
  · rw [matchQueue_partialFill iid iq o rest hiq hfill]
    simp [min_eq_left (le_of_not_le hfill)]

theorem matchQueue_rem_src (iid : Nat) :
    ∀ (iq : ℤ) (q : List Order), ∀ i ∈ (matchQueue iid iq q).2.2.2, ∃ o ∈ q, o.id = i := by
  intro iq q
  induction q generalizing iq with
  | nil => intro i hi; simp [matchQueue] at hi
  | cons o rest ih =>
    intro i hi
    by_cases hiq : iq ≤ 0
    · rw [matchQueue_stop iid iq o rest hiq] at hi
      simp at hi
    · by_cases hfill : o.quantity ≤ iq
      · rw [matchQueue_fill iid iq o rest hiq hfill] at hi
        rcases List.mem_cons.mp hi with hi | hi
        · exact ⟨o, List.mem_cons_self _ _, hi.symm⟩
        · obtain ⟨oo, hoo, hid⟩ := ih (iq - o.quantity) i hi
          exact ⟨oo, List.mem_cons_of_mem _ hoo, hid⟩
      · rw [matchQueue_partialFill iid iq o rest hiq hfill] at hi
        simp at hi

/-- Exact decrement of the resting side, per trade: every emitted trade
either fully fills its resting order (the trade quantity equals the order's
whole remaining quantity — a decrement to exactly 0 — and the order's id is
recorded for removal from level and index) or leaves a survivor in the
output queue whose quantity is the order's old quantity minus exactly the
trade's quantity. -/
theorem matchQueue_trade_decrement (iid : Nat) :
    ∀ (iq : ℤ) (q : List Order), ∀ t ∈ (matchQueue iid iq q).1, ∃ o ∈ q,
      t.resting_id = o.id ∧ t.price = o.price ∧
        ((t.quantity = o.quantity ∧ o.id ∈ (matchQueue iid iq q).2.2.2) ∨
          ∃ o' ∈ (matchQueue iid iq q).2.2.1, o'.id = o.id ∧ o'.price = o.price ∧
            o'.quantity = o.quantity - t.quantity) := by
  intro iq q
  induction q generalizing iq with
  | nil => intro t ht; simp [matchQueue] at ht
  | cons o rest ih =>
    intro t ht
    by_cases hiq : iq ≤ 0
    · rw [matchQueue_stop iid iq o rest hiq] at ht
      simp at ht
    · by_cases hfill : o.quantity ≤ iq
      · rw [matchQueue_fill iid iq o rest hiq hfill] at ht ⊢
        rcases List.mem_cons.mp ht with ht | ht
        · refine ⟨o, List.mem_cons_self _ _, ?_⟩
          rw [ht]
          exact ⟨rfl, rfl, Or.inl ⟨rfl, List.mem_cons_self _ _⟩⟩
        · obtain ⟨oo, hoo, hrid, hrpr, hdec⟩ := ih (iq - o.quantity) t ht
          refine ⟨oo, List.mem_cons_of_mem _ hoo, hrid, hrpr, ?_⟩
          rcases hdec with ⟨hq, hrem⟩ | ⟨o', ho', hrest⟩
          · exact Or.inl ⟨hq, List.mem_cons_of_mem _ hrem⟩
          · exact Or.inr ⟨o', ho', hrest⟩
      · rw [matchQueue_partialFill iid iq o rest hiq hfill] at ht ⊢
        rcases List.mem_singleton.mp ht with ht
        refine ⟨o, List.mem_cons_self _ _, ?_⟩
        rw [ht]
        refine ⟨rfl, rfl, Or.inr ⟨{ o with quantity := o.quantity - iq },
          List.mem_cons_self _ _, rfl, rfl, ?_⟩⟩
        dsimp only

/-- Survivors are never decremented without a trade: every order of the
output queue is either an untouched order of the input queue or the
partially filled image of an input order, its quantity the old quantity
minus exactly the quantity of the trade that hit it. -/
theorem matchQueue_out_src (iid : Nat) :
    ∀ (iq : ℤ) (q : List Order), ∀ o' ∈ (matchQueue iid iq q).2.2.1,
      o' ∈ q ∨ ∃ o ∈ q, ∃ t ∈ (matchQueue iid iq q).1,
        t.resting_id = o.id ∧ o'.id = o.id ∧ o'.price = o.price ∧
          o'.quantity = o.quantity - t.quantity := by
  intro iq q
  induction q generalizing iq with
  | nil => intro o' ho'; simp [matchQueue] at ho'
  | cons o rest ih =>
    intro o' ho'
    by_cases hiq : iq ≤ 0
    · rw [matchQueue_stop iid iq o rest hiq] at ho'
      exact Or.inl ho'
    · by_cases hfill : o.quantity ≤ iq
      · rw [matchQueue_fill iid iq o rest hiq hfill] at ho' ⊢
        rcases ih (iq - o.quantity) o' ho' with hin | ⟨oo, hoo, t, ht, hrest⟩
        · exact Or.inl (List.mem_cons_of_mem _ hin)
        · exact Or.inr ⟨oo, List.mem_cons_of_mem _ hoo, t,
            List.mem_cons_of_mem _ ht, hrest⟩
      · rw [matchQueue_partialFill iid iq o rest hiq hfill] at ho' ⊢
        rcases List.mem_cons.mp ho' with ho' | ho'
        · refine Or.inr ⟨o, List.mem_cons_self _ _, ⟨o.id, iid, o.price, iq⟩,
            List.mem_singleton.mpr rfl, rfl, ?_, ?_, ?_⟩ <;> rw [ho']
        · exact Or.inl (List.mem_cons_of_mem _ ho')

/-! Bridge lemmas for `get_depth`: on price lists drawn from the
dictionary's own keys, the `defaultdict` subscripts leave the side
unchanged and the fold computes a filter-and-map. -/

theorem depthSide_spec (m : OrderMap) :
    ∀ (ps : List ℚ) (s : Side), (∀ p ∈ ps, p ∈ akeys s) →
      depthSide m ps s =
        (((ps.filter (fun p => decide (0 < activeQty m ((alookup s p).getD [])))).map
            (fun p => (p, activeQty m ((alookup s p).getD [])))), s) := by
  intro ps
  induction ps with
  | nil => intro s _; simp [depthSide]
  | cons p rest ih =>
    intro s hmem
    have hp : p ∈ akeys s := hmem p (List.mem_cons_self _ _)
    have hq : ∃ q, alookup s p = some q := by
      cases hl : alookup s p with
      | none => exact absurd ((alookup_eq_none_iff s p).mp hl) (by simp [hp])
      | some q => exact ⟨q, rfl⟩
    obtain ⟨q, hq⟩ := hq
    have hdg : dget p s = (q, s) := dget_of_lookup s p q hq
    have hrest := ih s (fun p' hp' => hmem p' (List.mem_cons_of_mem _ hp'))
    by_cases htq : 0 < activeQty m q
    · simp [depthSide, hdg, hrest, htq, hq, List.filter_cons]
    · simp [depthSide, hdg, hrest, htq, hq, List.filter_cons]

theorem take_sort_mem_keys (s : Side) (n : Nat) :
    (∀ p ∈ (sortDesc (akeys s)).take n, p ∈ akeys s) ∧
      (∀ p ∈ (sortAsc (akeys s)).take n, p ∈ akeys s) := by
  constructor
  · intro p hp
    exact (mem_sortDesc (akeys s) p).mp (List.mem_of_mem_take hp)
  · intro p hp
    exact (mem_sortAsc (akeys s) p).mp (List.mem_of_mem_take hp)

theorem get_depth_eq (b : OrderBook) (n : Nat) :
    b.get_depth n =
      ((((sortDesc (akeys b.bids)).take n).filter
          (fun p => decide (0 < activeQty b.order_map ((alookup b.bids p).getD []))) |>.map
          (fun p => (p, activeQty b.order_map ((alookup b.bids p).getD []))),
        ((sortAsc (akeys b.asks)).take n).filter
          (fun p => decide (0 < activeQty b.order_map ((alookup b.asks p).getD []))) |>.map
          (fun p => (p, activeQty b.order_map ((alookup b.asks p).getD [])))),
       b) := by
  have hb := depthSide_spec b.order_map ((sortDesc (akeys b.bids)).take n) b.bids
    (take_sort_mem_keys b.bids n).1
  have ha := depthSide_spec b.order_map ((sortAsc (akeys b.asks)).take n) b.asks
    (take_sort_mem_keys b.asks n).2
  simp [OrderBook.get_depth, hb, ha]

/-! Lemmas about the mixin's scanning cancel. -/

theorem removeById_none (i : Nat) :
    ∀ q : List Order, (∀ o ∈ q, o.id ≠ i) → removeById i q = none := by
  intro q
  induction q with
  | nil => intro _; rfl
  | cons o rest ih =>
    intro h
    have ho := h o (List.mem_cons_self _ _)
    simp only [removeById, if_neg ho]
    rw [ih (fun o' ho' => h o' (List.mem_cons_of_mem _ ho'))]

theorem cancelScan_none (i : Nat) :
    ∀ s : Side, (∀ pq ∈ s, ∀ o ∈ pq.2, o.id ≠ i) → cancelScan i s = none := by
  intro s
  induction s with
  | nil => intro _; rfl
  | cons pq rest ih =>
    obtain ⟨p, q⟩ := pq
    intro h
    have hq : removeById i q = none :=
      removeById_none i q (h (p, q) (List.mem_cons_self _ _))
    simp only [cancelScan, hq]
    rw [ih (fun pq' hpq' => h pq' (List.mem_cons_of_mem _ hpq'))]

/-! Claim theorems. -/

/-- C1 counterexample: the claim says `cancel_order` on an identifier absent
from the Order Index fails with `OrderNotFound` rather than returning a
success/failure value; the index-driven `OrderBook.cancel_order` instead
returns the failure value `False` (and raises nothing), leaving the book
unchanged — here evaluated on the empty book with identifier 1. -/
theorem C1_cancel_missing_cex :
    OrderBook.empty.cancel_order 1 = (false, OrderBook.empty) := by decide

/-- C1 amended: on an identifier absent from the Order Index the
index-driven `cancel_order` returns `False` and leaves the book unchanged;
the superseded scanning mixin's `cancel_order` raises `OrderNotFound` when
the identifier is in no queue (its books are untouched since no branch
mutating them is reached). -/
theorem C1_cancel_missing_amended :
    (∀ (b : OrderBook) (i : Nat), alookup b.order_map i = none →
      b.cancel_order i = (false, b)) ∧
    (∀ (sb : SBook) (i : Nat),
      (∀ pq ∈ sb.bids, ∀ o ∈ pq.2, o.id ≠ i) →
      (∀ pq ∈ sb.asks, ∀ o ∈ pq.2, o.id ≠ i) →
      CancelModifyMixin.cancel_order sb i = .error .orderNotFound) := by
  constructor
  · intro b i h
    rw [cancel_order_eq, h]
  · intro sb i h1 h2
    unfold CancelModifyMixin.cancel_order
    rw [cancelScan_none i sb.bids h1, cancelScan_none i sb.asks h2]

/-- C1 witness: the amended theorem applied to the lazily cancelled book at
the never-added identifier 99, and to a concrete mixin book at
identifier 7. -/
theorem C1_cancel_missing_witness :
    bkLazy.cancel_order 99 = (false, bkLazy) ∧
      CancelModifyMixin.cancel_order ⟨[(100, [oB1])], []⟩ 7 = .error .orderNotFound := by
  constructor
  · exact C1_cancel_missing_amended.1 bkLazy 99 (by decide)
  · exact C1_cancel_missing_amended.2 ⟨[(100, [oB1])], []⟩ 7 (by decide) (by decide)

/-- C3 counterexample: the mixin's `cancel_order` removes the last order of
the level at price 100 and returns with the emptied level still present in
the bid side, violating the claimed level-cleanup invariant. -/
theorem C3_empty_level_cex :
    CancelModifyMixin.cancel_order ⟨[(100, [oB1])], []⟩ 1 =
      .ok (true, ⟨[(100, [])], []⟩) := by rfl

/-- C3 amended: over the index-driven book, no reachable state (any
operation sequence from the empty book) has a price key with an empty
queue on either side — its cancel never structurally empties a queue (lazy
deletion) and the modelled matching engine deletes emptied levels; the
mixin's scanning `cancel_order`, however, can leave an empty queue behind. -/
theorem C3_level_cleanup_amended (ops : List Op) :
    NoEmptyLevels (runOps ops).bids ∧ NoEmptyLevels (runOps ops).asks :=
  runOps_noempty ops

/-- C3 witness: the amended invariant applied to a one-add trace at the
level it creates. -/
theorem C3_level_cleanup_witness : [oB1] ≠ ([] : List Order) :=
  (C3_level_cleanup_amended [Op.add oB1]).1 (100, [oB1]) (by decide)

/-- C4 code bug: modifying a resting order's price via the mixin's
`modify_order` only overwrites the price field; the order remains queued
under its old price key 100 (now bearing price 105) and no level at 105
exists — the spec requires relocation to the new Price Level. -/
theorem C4_modify_price_in_place :
    CancelModifyMixin.modify_order ⟨[(100, [oB1])], []⟩ 1 (some 105) none =
        .ok (⟨1, 105, 10, true⟩, ⟨[(100, [⟨1, 105, 10, true⟩])], []⟩) ∧
      alookup [(100, [(⟨1, 105, 10, true⟩ : Order)])] 105 = none := ⟨by rfl, by decide⟩

/-- C7 code bug: the mixin's `modify_order` with new quantity 0 merely
stores 0 in the quantity field; the order keeps resting in its level
instead of being destroyed as the spec requires. -/
theorem C7_modify_zero_not_destroyed :
    CancelModifyMixin.modify_order ⟨[(100, [oB1])], []⟩ 1 none (some 0) =
      .ok (⟨1, 100, 0, true⟩, ⟨[(100, [⟨1, 100, 0, true⟩])], []⟩) := by rfl

/-- C10: `cancel_order` is idempotent on the index-driven book — after any
call, the identifier is absent from the Order Index, and a second call
returns `False` and leaves the state unchanged (the order-index keys are
assumed duplicate-free, as Python dict keys are). -/
theorem C10_cancel_idempotent (b : OrderBook) (i : Nat)
    (hnd : (akeys b.order_map).Nodup) :
    amem (b.cancel_order i).2.order_map i = false ∧
      (b.cancel_order i).2.cancel_order i = (false, (b.cancel_order i).2) := by
  rw [cancel_order_eq]
  cases hl : alookup b.order_map i with
  | none =>
    constructor
    · simp [amem, hl]
    · rw [cancel_order_eq, hl]
  | some pv =>
    have hnone : alookup (adel b.order_map i) i = none := alookup_adel_self _ i hnd
    constructor
    · simp [amem, hnone]
    · rw [cancel_order_eq]
      simp only at hnone ⊢
      rw [hnone]

/-- C10 witness: idempotence evaluated on the lazily cancelled book at
identifier 1. -/
theorem C10_cancel_idempotent_witness :
    amem (bkLazy.cancel_order 1).2.order_map 1 = false ∧
      (bkLazy.cancel_order 1).2.cancel_order 1 = (false, (bkLazy.cancel_order 1).2) :=
  C10_cancel_idempotent bkLazy 1 (by decide)

/-- C2 counterexample: cancelling order 2 (queued behind order 1 at
price 100) reports success and removes the identifier from the Order Index,
yet the order remains in the price-100 queue — the claimed "in the index if
and only if resting" invariant fails, and a successfully cancelled order is
still present in a Price Level's queue (lazy deletion). -/
theorem C2_index_iff_cex :
    (runOps [Op.add oB1, Op.add oB2, Op.add oS3]).cancel_order 2 = (true, bkLazy) ∧
      amem bkLazy.order_map 2 = false ∧
      oB2 ∈ (alookup bkLazy.bids 100).getD [] ∧ oB2.id = 2 := by decide

/-- C2 amended: one direction of the invariant holds over every operation
sequence from the empty book — every identifier in the Order Index belongs
to an order with that identifier resting in the recorded side's queue at
the recorded price; the converse fails because `cancel_order` lazily
deletes (the order can remain queued with its identifier gone from the
index).  `modify_order` exists only in the superseded scanning variant and
so is not an operation of this book; market execution is the spec-modelled
walk. -/
theorem C2_index_forward_invariant (ops : List Op) : IdxInv (runOps ops) :=
  (runOps_inv ops).2

/-- C2 witness: the forward invariant applied to a one-add trace at
identifier 1. -/
theorem C2_index_forward_witness :
    ∃ q, alookup (if true then (runOps [Op.add oB1]).bids
        else (runOps [Op.add oB1]).asks) 100 = some q ∧
      ∃ o ∈ q, o.id = 1 ∧ o.price = 100 :=
  C2_index_forward_invariant [Op.add oB1] 1 100 true (by decide)

/-- C9: the query operations are read-only; in particular `get_depth`,
whose loops subscript the `defaultdict` sides, returns the book state
unchanged (its subscripts only hit existing keys, so no entry is
materialised).  The remaining queries (`get_best_bid`, `get_best_ask`,
`get_spread`, `get_mid_price`) are embedded as pure functions of the state
because their source performs no write at all. -/
theorem C9_queries_readonly (b : OrderBook) (n : Nat) : (b.get_depth n).2 = b := by
  rw [get_depth_eq]

/-- C5 counterexample: the claim attributes the correctness of `get_depth`
to cancelled orders being structurally absent from the book; in fact the
lazily cancelled order 2 is still present in the price-100 queue and is
excluded from the reported quantity only by the read-time Order-Index
membership filter. -/
theorem C5_structural_cex :
    oB2 ∈ (alookup bkLazy.bids 100).getD [] ∧
      amem bkLazy.order_map oB2.id = false ∧
      (bkLazy.get_depth 5).1 = ([(100, 10)], [(110, 8)]) := by decide

/-- C5 amended: `get_depth(n)` reports at most `n` levels per side, bids by
descending and asks by ascending price, each reported quantity being the
sum over the level's queue of the quantities of orders whose id is still in
the Order Index (cancelled orders are filtered out at read time, while they
may remain structurally present), and only levels with positive filtered
quantity are reported. -/
theorem C5_depth_spec (b : OrderBook) (n : Nat) :
    (b.get_depth n).1.1.length ≤ n ∧ (b.get_depth n).1.2.length ≤ n ∧
      (b.get_depth n).1.1.Pairwise (fun x y => y.1 ≤ x.1) ∧
      (b.get_depth n).1.2.Pairwise (fun x y => x.1 ≤ y.1) ∧
      (∀ pq ∈ (b.get_depth n).1.1, pq.1 ∈ akeys b.bids ∧
        pq.2 = activeQty b.order_map ((alookup b.bids pq.1).getD []) ∧ 0 < pq.2) ∧
      (∀ pq ∈ (b.get_depth n).1.2, pq.1 ∈ akeys b.asks ∧
        pq.2 = activeQty b.order_map ((alookup b.asks pq.1).getD []) ∧ 0 < pq.2) := by
  rw [get_depth_eq]
  dsimp only
  refine ⟨?_, ?_, ?_, ?_, ?_, ?_⟩
  · refine le_trans ?_ (List.length_take_le n (sortDesc (akeys b.bids)))
    rw [List.length_map]
    exact List.length_filter_le _ _
  · refine le_trans ?_ (List.length_take_le n (sortAsc (akeys b.asks)))
    rw [List.length_map]
    exact List.length_filter_le _ _
  · have h1 := (sortDesc_pairwise (akeys b.bids)).sublist (List.take_sublist n _)
    have h2 := h1.sublist
      (@List.filter_sublist ℚ
        (fun p => decide (0 < activeQty b.order_map ((alookup b.bids p).getD [])))
        ((sortDesc (akeys b.bids)).take n))
    rw [List.pairwise_map]
    exact h2.imp (fun hab => hab)
  · have h1 := (sortAsc_pairwise (akeys b.asks)).sublist (List.take_sublist n _)
    have h2 := h1.sublist
      (@List.filter_sublist ℚ
        (fun p => decide (0 < activeQty b.order_map ((alookup b.asks p).getD [])))
        ((sortAsc (akeys b.asks)).take n))
    rw [List.pairwise_map]
    exact h2.imp (fun hab => hab)
  · intro pq hpq
    obtain ⟨p, hp, he⟩ := List.mem_map.mp hpq
    obtain ⟨hpt, hpred⟩ := List.mem_filter.mp hp
    refine ⟨?_, ?_, ?_⟩
    · rw [← he]
      exact (mem_sortDesc (akeys b.bids) p).mp (List.mem_of_mem_take hpt)
    · rw [← he]
    · rw [← he]
      exact of_decide_eq_true hpred
  · intro pq hpq
    obtain ⟨p, hp, he⟩ := List.mem_map.mp hpq
    obtain ⟨hpt, hpred⟩ := List.mem_filter.mp hp
    refine ⟨?_, ?_, ?_⟩
    · rw [← he]
      exact (mem_sortAsc (akeys b.asks) p).mp (List.mem_of_mem_take hpt)
    · rw [← he]
    · rw [← he]
      exact of_decide_eq_true hpred

/-- C5 witness: the amended depth specification applied to the lazily
cancelled book at the reported bid level. -/
theorem C5_depth_witness :
    (100 : ℚ) ∈ akeys bkLazy.bids ∧
      (10 : ℤ) = activeQty bkLazy.order_map ((alookup bkLazy.bids 100).getD []) ∧
      (0 : ℤ) < 10 :=
  (C5_depth_spec bkLazy 5).2.2.2.2.1 (100, 10) (by decide)

/-- C8: the query operations are total and follow the source formulas —
`get_best_bid`/`get_best_ask` return `None` exactly when their side's
dictionary is empty and otherwise the maximum bid key / minimum ask key;
`get_spread` and `get_mid_price` return `best_ask - best_bid` and
`(best_bid + best_ask) / 2` when both sides are non-empty and `None`
otherwise. -/
theorem C8_queries_spec (b : OrderBook) :
    (b.bids = [] → b.get_best_bid = none) ∧
      (b.bids ≠ [] → ∃ m, b.get_best_bid = some m ∧ m ∈ akeys b.bids ∧
        ∀ p ∈ akeys b.bids, p ≤ m) ∧
      (b.asks = [] → b.get_best_ask = none) ∧
      (b.asks ≠ [] → ∃ m, b.get_best_ask = some m ∧ m ∈ akeys b.asks ∧
        ∀ p ∈ akeys b.asks, m ≤ p) ∧
      (∀ bb ba, b.get_best_bid = some bb → b.get_best_ask = some ba →
        b.get_spread = some (ba - bb) ∧ b.get_mid_price = some ((bb + ba) / 2)) ∧
      ((b.get_best_bid = none ∨ b.get_best_ask = none) →
        b.get_spread = none ∧ b.get_mid_price = none) := by
  refine ⟨?_, ?_, ?_, ?_, ?_, ?_⟩
  · intro h
    simp [OrderBook.get_best_bid, h]
  · intro h
    have hke : akeys b.bids ≠ [] := by
      cases hb : b.bids with
      | nil => exact absurd hb h
      | cons hd tl => simp [akeys]
    obtain ⟨m, hm, hmem, hle⟩ := listMax_spec (akeys b.bids) hke
    refine ⟨m, ?_, hmem, hle⟩
    have hie : b.bids.isEmpty = false := by
      cases hb : b.bids with
      | nil => exact absurd hb h
      | cons hd tl => rfl
    simp [OrderBook.get_best_bid, hie, hm]
  · intro h
    simp [OrderBook.get_best_ask, h]
  · intro h
    have hke : akeys b.asks ≠ [] := by
      cases hb : b.asks with
      | nil => exact absurd hb h
      | cons hd tl => simp [akeys]
    obtain ⟨m, hm, hmem, hle⟩ := listMin_spec (akeys b.asks) hke
    refine ⟨m, ?_, hmem, hle⟩
    have hie : b.asks.isEmpty = false := by
      cases hb : b.asks with
      | nil => exact absurd hb h
      | cons hd tl => rfl
    simp [OrderBook.get_best_ask, hie, hm]
  · intro bb ba hbb hba
    constructor
    · simp [OrderBook.get_spread, hbb, hba]
    · simp [OrderBook.get_mid_price, hbb, hba]
  · intro h
    rcases h with h | h
    · constructor
      · simp [OrderBook.get_spread, h]
      · simp [OrderBook.get_mid_price, h]
    · constructor
      · cases hbb : b.get_best_bid <;> simp [OrderBook.get_spread, hbb, h]
      · cases hbb : b.get_best_bid <;> simp [OrderBook.get_mid_price, hbb, h]

/-- C8 witness: the query specification applied to the lazily cancelled
book (best bid 100, best ask 110). -/
theorem C8_queries_witness :
    bkLazy.get_spread = some 10 ∧ bkLazy.get_mid_price = some 105 := by
  have h := (C8_queries_spec bkLazy).2.2.2.2.1 100 110 (by decide) (by decide)
  constructor
  · rw [h.1]
    norm_num
  · rw [h.2]
    norm_num

/-- C6 (matching engine, modelled from the spec): against a queue of
positive-quantity resting orders, the first match executes exactly
`min(incoming remaining, resting remaining)` at the resting order's price;
the emitted trade quantities sum to the incoming order's total decrement and
the leftover stays within `[0, incoming]`; every trade is priced at the
matched resting order's price with positive quantity bounded by that order's
remaining quantity; surviving resting orders keep positive quantity (none
becomes negative); every resting order either survives with its id and
price or has its id recorded as fully filled, and those recorded ids are
deleted from the order index by the level step; and the resting side is
decremented by exactly the executed quantity: every trade either equals its
resting order's whole remaining quantity (the order reaches 0 and its id is
recorded for removal) or leaves a survivor with quantity = old quantity
minus the trade's quantity, while every survivor is either an untouched
input order or such a partially filled image. -/
theorem C6_matching_spec (iid : Nat) (iq : ℤ) (q : List Order)
    (hiq : 0 ≤ iq) (hpos : ∀ o ∈ q, 0 < o.quantity) :
    (∀ o rest, q = o :: rest → 0 < iq →
      (matchQueue iid iq q).1.head? = some ⟨o.id, iid, o.price, min iq o.quantity⟩) ∧
      ((matchQueue iid iq q).1.map Trade.quantity).sum = iq - (matchQueue iid iq q).2.1 ∧
      (0 ≤ (matchQueue iid iq q).2.1 ∧ (matchQueue iid iq q).2.1 ≤ iq) ∧
      (∀ t ∈ (matchQueue iid iq q).1, ∃ o ∈ q,
        t.resting_id = o.id ∧ t.incoming_id = iid ∧ t.price = o.price ∧
          0 < t.quantity ∧ t.quantity ≤ o.quantity) ∧
      (∀ o ∈ (matchQueue iid iq q).2.2.1, 0 < o.quantity) ∧
      (∀ o ∈ q, (∃ o' ∈ (matchQueue iid iq q).2.2.1,
          o'.id = o.id ∧ o'.price = o.price) ∨ o.id ∈ (matchQueue iid iq q).2.2.2) ∧
      (∀ (s : Side) (m : OrderMap) (p : ℚ), (akeys m).Nodup → alookup s p = some q →
        ∀ i ∈ (matchQueue iid iq q).2.2.2,
          alookup (levelStep iid iq p s m).2.2.2 i = none) ∧
      (∀ t ∈ (matchQueue iid iq q).1, ∃ o ∈ q,
        t.resting_id = o.id ∧ t.price = o.price ∧
          ((t.quantity = o.quantity ∧ o.id ∈ (matchQueue iid iq q).2.2.2) ∨
            ∃ o' ∈ (matchQueue iid iq q).2.2.1, o'.id = o.id ∧ o'.price = o.price ∧
              o'.quantity = o.quantity - t.quantity)) ∧
      (∀ o' ∈ (matchQueue iid iq q).2.2.1,
        o' ∈ q ∨ ∃ o ∈ q, ∃ t ∈ (matchQueue iid iq q).1,
          t.resting_id = o.id ∧ o'.id = o.id ∧ o'.price = o.price ∧
            o'.quantity = o.quantity - t.quantity) := by
  refine ⟨?_, matchQueue_conserve iid iq q, matchQueue_final_bounds iid iq q hiq hpos,
    matchQueue_trades iid iq q hpos, matchQueue_out_pos iid iq q hpos,
    matchQueue_survive iid iq q, ?_,
    matchQueue_trade_decrement iid iq q, matchQueue_out_src iid iq q⟩
  · intro o rest he hpos'
    rw [he]
    exact matchQueue_head iid iq o rest hpos'
  · intro s m p hnd hl i hi
    have hgd : (alookup s p).getD [] = q := by simp [hl]
    simp only [levelStep, hgd]
    exact alookup_foldl_adel_of_mem _ m hnd i hi

/-- C6 witness: the matching specification applied to a market-style
incoming quantity 12 against the single resting sell order 3 (8 at 110):
the trade head is 8 at price 110 and conservation holds; and applied to a
partial fill of 5 against the same order: the trade of quantity 5 leaves a
survivor decremented by exactly 5 (8 - 5 = 3). -/
theorem C6_matching_witness :
    ((matchQueue 9 12 [oS3]).1.head? = some ⟨3, 9, 110, 8⟩ ∧
      ((matchQueue 9 12 [oS3]).1.map Trade.quantity).sum =
        12 - (matchQueue 9 12 [oS3]).2.1) ∧
      (∃ o ∈ [oS3], (⟨3, 9, 110, 5⟩ : Trade).resting_id = o.id ∧
        (⟨3, 9, 110, 5⟩ : Trade).price = o.price ∧
          (((⟨3, 9, 110, 5⟩ : Trade).quantity = o.quantity ∧
              o.id ∈ (matchQueue 9 5 [oS3]).2.2.2) ∨
            ∃ o' ∈ (matchQueue 9 5 [oS3]).2.2.1, o'.id = o.id ∧ o'.price = o.price ∧
              o'.quantity = o.quantity - (⟨3, 9, 110, 5⟩ : Trade).quantity)) := by
  constructor
  · constructor
    · have h := (C6_matching_spec 9 12 [oS3] (by decide) (by decide)).1 oS3 [] rfl (by decide)
      have h2 : (⟨oS3.id, 9, oS3.price, min 12 oS3.quantity⟩ : Trade) = ⟨3, 9, 110, 8⟩ := by
        decide
      rw [h2] at h
      exact h
    · exact (C6_matching_spec 9 12 [oS3] (by decide) (by decide)).2.1
  · exact (C6_matching_spec 9 5 [oS3] (by decide) (by decide)).2.2.2.2.2.2.2.1
      ⟨3, 9, 110, 5⟩ (by decide)
